import Mathlib

/-!
# Verification of the fdb-document-layer query-plan executor (`QLPlan.actor.cpp`)

This development gives a shallow embedding of the checkpoint / split-bound
protocol and the streaming operators of `src/QLPlan.actor.cpp`, and proves the
testable properties of the specification against it.

## Key model

The KV store orders byte strings bytewise.  Every key that the plan executor
touches is the tuple encoding (`DataKey`) of a sequence of items, whose first
item is the document's primary key; the encoding is order-preserving (tuple
order = bytewise order of the encodings) and an encoded item is never a proper
prefix of another encoded item.  We therefore model keys at item granularity:

* `Bytes` — an (encoded) item, ordered lexicographically;
* `CellKey` — a full KV key of a document cell: primary-key item plus the
  remainder of the tuple (collapsed into one lexicographically ordered blob,
  which is faithful because comparisons below never split the remainder);
* `MKey` — the key values the executor manipulates: `bot` for the empty key /
  `"\x00"` lower sentinel, `cell k` for a concrete cell key, `strincPk p` for
  `strinc(<encoded primary key p>)` (the least key after every key whose first
  item is `p`, as computed by the `doPKScan` cancellation handler), and `top`
  for the `"\xff"` upper sentinel.

The linear order on `MKey` is inherited, via an explicit rank embedding, from
the bytewise order of the byte strings these values denote.
-/

namespace DocLayer

/-- An encoded tuple item (a byte string), ordered lexicographically. -/
abbrev Bytes := List Nat

/-- A full KV key of a document cell: the primary-key item (`DataKey::decode_item(key, 0)`)
and the rest of the encoded tuple. -/
structure CellKey where
  pk : Bytes
  cell : Bytes
deriving DecidableEq, Repr

/-- Rank embedding of `CellKey` into a lexicographic product: full keys compare
first by primary-key item, then by the remainder (bytewise order of the
tuple encoding). -/
def CellKey.rep (k : CellKey) : Lex (Bytes × Bytes) := toLex (k.pk, k.cell)

theorem CellKey.rep_inj : Function.Injective CellKey.rep := by
  intro a b h
  cases a; cases b
  simpa [CellKey.rep, toLex, Prod.mk.injEq, CellKey.mk.injEq] using h

instance : LinearOrder CellKey := LinearOrder.lift' CellKey.rep CellKey.rep_inj

theorem CellKey.lt_iff {a b : CellKey} :
    a < b ↔ a.pk < b.pk ∨ (a.pk = b.pk ∧ a.cell < b.cell) := by
  change a.rep < b.rep ↔ _
  cases a; cases b
  simpa [CellKey.rep] using Prod.Lex.lt_iff _ _

/-- The key values manipulated by the plan executor and the checkpoint:
`bot` = empty key / `"\x00"` sentinel (below every cell key), `cell k` = a
concrete cell key, `strincPk p` = `strinc` of the encoded primary key `p`
(strictly above every cell of document `p`, at or below every later key),
`top` = `"\xff"` (above every cell key; `doPKScan` only emits scan keys
strictly below it). -/
inductive MKey
  | bot
  | cell (k : CellKey)
  | strincPk (p : Bytes)
  | top
deriving DecidableEq, Repr

/-- Rank embedding of `MKey` into nested lexicographic products, reflecting the
bytewise order of the denoted byte strings: `bot` is below everything; a cell
key of document `p` sits below `strincPk p` and above `strincPk q` for `q < p`;
`top` is above everything. -/
def MKey.rep : MKey → Lex (Nat × Lex (Bytes × Lex (Nat × Bytes)))
  | .bot => toLex (0, toLex ([], toLex (0, [])))
  | .cell k => toLex (1, toLex (k.pk, toLex (0, k.cell)))
  | .strincPk p => toLex (1, toLex (p, toLex (1, [])))
  | .top => toLex (2, toLex ([], toLex (0, [])))

theorem MKey.rep_injective : Function.Injective MKey.rep := by
  intro a b h
  cases a <;> cases b
  case bot.bot => rfl
  case top.top => rfl
  case cell.cell j k =>
    cases j; cases k
    simp_all [MKey.rep]
  all_goals simp_all [MKey.rep]

instance : LinearOrder MKey := LinearOrder.lift' MKey.rep MKey.rep_injective

private theorem lexNat_lt_iff {a b : Nat} {x y : Lex (Bytes × Lex (Nat × Bytes))} :
    (toLex (a, x) : Lex (Nat × Lex (Bytes × Lex (Nat × Bytes)))) < toLex (b, y) ↔
      a < b ∨ (a = b ∧ x < y) := Prod.Lex.lt_iff _ _

private theorem lexBytes_lt_iff {a b : Bytes} {x y : Lex (Nat × Bytes)} :
    (toLex (a, x) : Lex (Bytes × Lex (Nat × Bytes))) < toLex (b, y) ↔
      a < b ∨ (a = b ∧ x < y) := Prod.Lex.lt_iff _ _

private theorem lexTail_lt_iff {a b : Nat} {x y : Bytes} :
    (toLex (a, x) : Lex (Nat × Bytes)) < toLex (b, y) ↔
      a < b ∨ (a = b ∧ x < y) := Prod.Lex.lt_iff _ _

theorem MKey.bot_lt_cell (k : CellKey) : MKey.bot < MKey.cell k := by
  change MKey.rep _ < MKey.rep _
  simp [MKey.rep, lexNat_lt_iff]

theorem MKey.cell_lt_top (k : CellKey) : MKey.cell k < MKey.top := by
  change MKey.rep _ < MKey.rep _
  simp [MKey.rep, lexNat_lt_iff]

theorem MKey.bot_le (m : MKey) : MKey.bot ≤ m := by
  cases m
  case bot => exact le_rfl
  all_goals
    apply le_of_lt
    change MKey.rep _ < MKey.rep _
    simp [MKey.rep, lexNat_lt_iff]

theorem MKey.lt_top {m : MKey} (h : m ≠ MKey.top) : m < MKey.top := by
  cases m
  case top => exact absurd rfl h
  all_goals
    change MKey.rep _ < MKey.rep _
    simp [MKey.rep, lexNat_lt_iff]

theorem MKey.cell_lt_strincPk {k : CellKey} {p : Bytes} :
    MKey.cell k < MKey.strincPk p ↔ k.pk ≤ p := by
  change MKey.rep _ < MKey.rep _ ↔ _
  simp only [MKey.rep, lexNat_lt_iff, lexBytes_lt_iff, lexTail_lt_iff]
  simp [le_iff_lt_or_eq]

theorem MKey.strincPk_lt_cell {k : CellKey} {p : Bytes} :
    MKey.strincPk p < MKey.cell k ↔ p < k.pk := by
  change MKey.rep _ < MKey.rep _ ↔ _
  simp only [MKey.rep, lexNat_lt_iff, lexBytes_lt_iff, lexTail_lt_iff]
  simp

theorem MKey.cell_lt_cell {j k : CellKey} : MKey.cell j < MKey.cell k ↔ j < k := by
  rw [CellKey.lt_iff]
  change MKey.rep _ < MKey.rep _ ↔ _
  simp only [MKey.rep, lexNat_lt_iff, lexBytes_lt_iff, lexTail_lt_iff]
  simp

/-!
## The primary-key scan and the checkpoint (`doPKScan`, `PlanCheckpoint`)

* `getDescendants` models the KV store's ordered range read
  (`IReadContext::getDescendants(lo, hi, lock)`, §6 of the spec): the cells of
  the collection whose keys lie in the half-open range `[lo, hi)`, in key order.
* `pkScanLoop` is the loop body of `doPKScan` (QLPlan.actor.cpp:536-573): it
  deduplicates cells on the primary-key item and emits, per document, the first
  cell (whose full key becomes the document's scan key).  The `lastPK` state
  variable starts as the empty string.
* `pkScanLastKey` is the `lastKey` state variable after processing a list of
  cells (updated at the bottom of the loop body for every processed cell).
* `tableScanRange` is the bound intersection performed by
  `TableScanPlan::execute` (QLPlan.actor.cpp:666-668): `beginKey =
  max("\\x00", bounds.begin)`, `endKey = max(beginKey, min("\\xff", bounds.end))`.
-/

/-- Ordered range read `[lo, hi)` over the collection's cells, in key order
(the store list is kept sorted by full key). -/
def getDescendants (store : List CellKey) (lo hi : MKey) : List CellKey :=
  store.filter (fun k => decide (lo ≤ MKey.cell k) && decide (MKey.cell k < hi))

/-- Loop body of `doPKScan` (QLPlan.actor.cpp:546-560): emit a document (keyed
by the current cell's full key) whenever the primary-key item changes. -/
def pkScanLoop : List CellKey → Bytes → List CellKey
  | [], _ => []
  | kv :: rest, lastPK =>
      if kv.pk ≠ lastPK then kv :: pkScanLoop rest kv.pk
      else pkScanLoop rest lastPK

/-- The `lastKey` state variable of `doPKScan` after a list of cells has been
fully processed, starting from `last` (the empty key at scan start). -/
def pkScanLastKey (kvs : List CellKey) (last : Bytes) : Bytes :=
  kvs.foldl (fun _ kv => kv.pk) last

/-- Bound intersection of `TableScanPlan::execute` (QLPlan.actor.cpp:666-668). -/
def tableScanRange (bounds : MKey × MKey) : MKey × MKey :=
  let beginKey := max MKey.bot bounds.1
  let endKey := max beginKey (min MKey.top bounds.2)
  (beginKey, endKey)

/-- The KV stream read by a table scan executed under checkpoint bounds
`bounds` (QLPlan.actor.cpp:666-669). -/
def tableScanKvs (store : List CellKey) (bounds : MKey × MKey) : List CellKey :=
  getDescendants store (tableScanRange bounds).1 (tableScanRange bounds).2

/-- A table scan executed under checkpoint bounds `bounds`: range-read the
store over the intersected bounds and run the `doPKScan` dedup loop
(QLPlan.actor.cpp:660-673 composed with 536-573). -/
def tableScanEmit (store : List CellKey) (bounds : MKey × MKey) : List CellKey :=
  pkScanLoop (tableScanKvs store bounds) []

/-- Split key written by `doPKScan`'s cancellation handler
(QLPlan.actor.cpp:563-567) when `splitBoundWanted()`:
`strinc(DataKey::decode_bytes(lastKey)[0])`, i.e. `strinc` of the primary-key
item of the last fully processed cell. -/
def pkScanSplit (processed : List CellKey) : MKey :=
  MKey.strincPk (pkScanLastKey processed [])

/-!
### PlanCheckpoint

`PlanCheckpoint` state (QLPlan.actor.cpp:1801-1947).  The `Scan` and `State`
entry types live in the (not included) header `QLPlan.h`; their default values
are modelled from the spec and from the source's own overview comment
(QLPlan.actor.cpp:1860-1862 — "the split key will have its default value of
\xff") and from the fallback of `getBounds` (QLPlan.actor.cpp:1922-1926):
fresh bounds are `["", "\xff")` and a fresh split key is `"\xff"`.
-/

/-- Per-scan entry of a `PlanCheckpoint`: half-open bounds and the split key. -/
structure ScanEntry where
  bounds : MKey × MKey := (MKey.bot, MKey.top)
  split : MKey := MKey.top
deriving DecidableEq, Repr

/-- Per-operator resumable integer state (e.g. the update counter, remaining
skip): a starting value and the split (current) value. -/
structure StateEntry where
  start : Int
  split : Int
deriving DecidableEq, Repr

/-- The checkpoint state that `stopAndCheckpoint` reads: per-scan entries and
per-operator integer states (the operator list and the flow-control lock do not
participate in the new checkpoint's construction). -/
structure PlanCheckpoint where
  scans : List ScanEntry
  states : List StateEntry
deriving DecidableEq, Repr

/-- `PlanCheckpoint::splitBound(whichScan) = k`: one split-bound write performed
by a cancellation handler (QLPlan.actor.cpp:1928-1931 gives out the reference;
the handler assigns to it). -/
def setSplit : List ScanEntry → Nat → MKey → List ScanEntry
  | [], _, _ => []
  | s :: rest, 0, k => { s with split := k } :: rest
  | s :: rest, i + 1, k => s :: setSplit rest i k

/-- The sequence of split-bound writes performed while `stop()` cancels the
operator tasks in topological order: applied first to last, so the final value
of each scan's split key is the last write to it. -/
def applySplitWrites (scans : List ScanEntry) (ws : List (Nat × MKey)) : List ScanEntry :=
  ws.foldl (fun sc w => setSplit sc w.1 w.2) scans

/-- `PlanCheckpoint::stopAndCheckpoint` (QLPlan.actor.cpp:1869-1883), the
construction of the returned checkpoint after `stop()` has run the cancellation
handlers: the new checkpoint's scan `s` has `bounds = [split[s], old_end[s])`
(and a fresh default split key), and each integer state restarts from the old
state's split value. -/
def stopAndCheckpoint (c : PlanCheckpoint) : PlanCheckpoint where
  scans := c.scans.map fun s => { bounds := (s.split, s.bounds.2) }
  states := c.states.map fun s => { start := s.split, split := s.split }

/-!
### Checkpoint exactly-once for the primary-key scan (claim C1 machinery)
-/

theorem pkScanLastKey_append (l1 l2 : List CellKey) (last : Bytes) :
    pkScanLastKey (l1 ++ l2) last = pkScanLastKey l2 (pkScanLastKey l1 last) := by
  simp [pkScanLastKey, List.foldl_append]

theorem pkScanLastKey_eq_getLast :
    ∀ (l : List CellKey) (last : Bytes) (h : l ≠ []), pkScanLastKey l last = (l.getLast h).pk := by
  intro l
  induction l with
  | nil => intro last h; exact absurd rfl h
  | cons k rest ih =>
    intro last h
    cases rest with
    | nil => simp [pkScanLastKey]
    | cons k2 rest2 =>
      rw [List.getLast_cons (by simp)]
      exact ih k.pk (by simp)

theorem pkScanLoop_append (l1 l2 : List CellKey) (last : Bytes) :
    pkScanLoop (l1 ++ l2) last = pkScanLoop l1 last ++ pkScanLoop l2 (pkScanLastKey l1 last) := by
  induction l1 generalizing last with
  | nil => simp [pkScanLoop, pkScanLastKey]
  | cons k rest ih =>
    by_cases hk : k.pk = last
    · simp only [List.cons_append, pkScanLoop, hk, ne_eq, not_true_eq_false, if_false]
      have h2 : pkScanLastKey (k :: rest) last = pkScanLastKey rest last := by
        simp [pkScanLastKey, hk]
      rw [h2]
      exact ih last
    · simp only [List.cons_append, pkScanLoop, ne_eq, hk, not_false_eq_true, if_true]
      have h2 : pkScanLastKey (k :: rest) last = pkScanLastKey rest k.pk := by
        simp [pkScanLastKey]
      rw [h2]
      exact congrArg (k :: ·) (ih k.pk)

/-- Resuming a deduplicating scan past the last processed primary key is the
same as continuing it: under a nondecreasing primary-key sequence whose
elements are all ≥ `p`, running the loop with `lastPK = p` equals running it
from scratch on the elements with primary key strictly greater than `p`. -/
theorem pkScanLoop_resume (p : Bytes) :
    ∀ l : List CellKey, l.Pairwise (fun a b => a.pk ≤ b.pk) →
      (∀ k ∈ l, p ≤ k.pk) →
      pkScanLoop l p = pkScanLoop (l.filter (fun k => decide (p < k.pk))) [] := by
  intro l
  induction l with
  | nil => simp [pkScanLoop]
  | cons k rest ih =>
    intro hpw hge
    obtain ⟨hhead, htail⟩ := List.pairwise_cons.mp hpw
    rcases eq_or_lt_of_le (hge k (List.mem_cons_self k rest)) with heq | hlt
    · have hfk : (fun k : CellKey => decide (p < k.pk)) k = false := by
        simp [← heq]
      rw [List.filter_cons_of_neg (by simpa using hfk)]
      have : pkScanLoop (k :: rest) p = pkScanLoop rest p := by
        simp [pkScanLoop, heq]
      rw [this]
      exact ih htail (fun j hj => hge j (List.mem_cons_of_mem k hj))
    · have hne : k.pk ≠ [] := by
        intro h0
        rw [h0] at hlt
        exact absurd hlt (by simp [List.nil_le.not_lt])
      rw [List.filter_cons_of_pos (by simpa using hlt)]
      have hfilter : rest.filter (fun k : CellKey => decide (p < k.pk)) = rest := by
        rw [List.filter_eq_self]
        intro j hj
        simpa using lt_of_lt_of_le hlt (hhead j hj)
      rw [hfilter]
      have hl : pkScanLoop (k :: rest) p = k :: pkScanLoop rest k.pk := by
        simp [pkScanLoop, ne_of_gt hlt]
      have hr : pkScanLoop (k :: rest) [] = k :: pkScanLoop rest k.pk := by
        simp [pkScanLoop, hne]
      rw [hl, hr]

theorem CellKey.pk_le_of_le {a b : CellKey} (h : a ≤ b) : a.pk ≤ b.pk := by
  rcases eq_or_lt_of_le h with rfl | hlt
  · exact le_rfl
  · rcases CellKey.lt_iff.mp hlt with h' | ⟨h', -⟩
    · exact le_of_lt h'
    · exact le_of_eq h'

theorem le_getLast_of_pairwise_lt :
    ∀ (l : List CellKey) (h : l ≠ []), l.Pairwise (· < ·) → ∀ a ∈ l, a ≤ l.getLast h := by
  intro l
  induction l with
  | nil => intro h; exact absurd rfl h
  | cons x rest ih =>
    intro h hpw a ha
    obtain ⟨hhead, htail⟩ := List.pairwise_cons.mp hpw
    cases rest with
    | nil =>
      simp only [List.mem_singleton] at ha
      simp [ha]
    | cons y rest2 =>
      rw [List.getLast_cons (by simp)]
      rcases List.mem_cons.mp ha with rfl | ha'
      · exact le_of_lt (hhead _ (List.getLast_mem (by simp)))
      · exact ih (by simp) htail a ha'

theorem getDescendants_bot_top (store : List CellKey) :
    getDescendants store MKey.bot MKey.top = store := by
  rw [getDescendants, List.filter_eq_self]
  intro k _
  simp [MKey.bot_le, MKey.cell_lt_top]

theorem getDescendants_strincPk_top (store : List CellKey) (p : Bytes) :
    getDescendants store (MKey.strincPk p) MKey.top =
      store.filter (fun k => decide (p < k.pk)) := by
  rw [getDescendants]
  apply List.filter_congr
  intro k _
  rw [decide_eq_true (MKey.cell_lt_top k), Bool.and_true]
  apply decide_eq_decide.mpr
  constructor
  · intro h
    rcases lt_or_eq_of_le h with h' | h'
    · exact MKey.strincPk_lt_cell.mp h'
    · exact absurd h' (by simp)
  · intro h
    exact le_of_lt (MKey.strincPk_lt_cell.mpr h)

theorem tableScanRange_bot_top : tableScanRange (MKey.bot, MKey.top) = (MKey.bot, MKey.top) := by
  simp [tableScanRange, max_self, min_self, max_eq_right (MKey.bot_le MKey.top)]

theorem tableScanRange_strincPk_top (p : Bytes) :
    tableScanRange (MKey.strincPk p, MKey.top) = (MKey.strincPk p, MKey.top) := by
  have h1 : max MKey.bot (MKey.strincPk p) = MKey.strincPk p := max_eq_right (MKey.bot_le _)
  have h2 : MKey.strincPk p ≤ MKey.top := le_of_lt (MKey.lt_top (by simp))
  simp [tableScanRange, h1, min_self, max_eq_right h2]

/-- Core of the exactly-once argument: for a (strictly) sorted store with
nonempty primary keys, interrupting the dedup scan after `n` fully processed
cells and rescanning from `strinc` of the last processed primary key emits
exactly the documents that the uninterrupted scan emits, in the same order. -/
theorem pkScan_resume_core (store : List CellKey) (n : Nat)
    (hsort : store.Pairwise (· < ·))
    (hn1 : 1 ≤ n) (hn2 : n ≤ store.length) :
    pkScanLoop (store.take n) [] ++
        pkScanLoop (store.filter
          (fun k => decide (pkScanLastKey (store.take n) [] < k.pk))) [] =
      pkScanLoop store [] := by
  set p : Bytes := pkScanLastKey (store.take n) [] with hp
  have htkne : store.take n ≠ [] := by
    intro h
    have hlen := congrArg List.length h
    rw [List.length_take] at hlen
    simp only [List.length_nil] at hlen
    omega
  have hsplit := List.take_append_drop n store
  have hpwapp : (store.take n ++ store.drop n).Pairwise (· < ·) := by rw [hsplit]; exact hsort
  obtain ⟨hpwtk, hpwdr, hcross⟩ := List.pairwise_append.mp hpwapp
  have hlastmem : (store.take n).getLast htkne ∈ store.take n := List.getLast_mem htkne
  have hple : ∀ a ∈ store.take n, a.pk ≤ p := by
    intro a ha
    rw [hp, pkScanLastKey_eq_getLast _ _ htkne]
    exact CellKey.pk_le_of_le (le_getLast_of_pairwise_lt _ htkne hpwtk a ha)
  have hpge : ∀ k ∈ store.drop n, p ≤ k.pk := by
    intro k hk
    rw [hp, pkScanLastKey_eq_getLast _ _ htkne]
    exact CellKey.pk_le_of_le (le_of_lt (hcross _ hlastmem k hk))
  have hfiltk : (store.take n).filter (fun k => decide (p < k.pk)) = [] := by
    rw [List.filter_eq_nil_iff]
    intro a ha
    simpa using not_lt_of_le (hple a ha)
  have hfilt : store.filter (fun k => decide (p < k.pk)) =
      (store.drop n).filter (fun k => decide (p < k.pk)) := by
    conv_lhs => rw [← hsplit]
    rw [List.filter_append, hfiltk, List.nil_append]
  have hdrpw : (store.drop n).Pairwise (fun a b : CellKey => a.pk ≤ b.pk) := by
    refine List.Pairwise.imp ?_ hpwdr
    intro a b hab
    exact CellKey.pk_le_of_le (le_of_lt hab)
  rw [hfilt, ← pkScanLoop_resume p (store.drop n) hdrpw hpge]
  conv_rhs => rw [← hsplit]
  rw [pkScanLoop_append, hp]

instance : Inhabited ScanEntry := ⟨{}⟩

/-- C1.  Interrupting a table scan by `stopAndCheckpoint` after any number
`n ≥ 1` of fully processed cells and re-executing it under the returned
checkpoint emits, before plus after the checkpoint, exactly the documents of an
uninterrupted execution, in order — in particular the multisets of emitted
documents keyed by primary key agree: nothing is repeated, nothing is skipped. -/
theorem checkpoint_exactly_once (store : List CellKey) (n : Nat)
    (hsort : store.Pairwise (· < ·))
    (hn1 : 1 ≤ n) (hn2 : n ≤ (tableScanKvs store (MKey.bot, MKey.top)).length) :
    pkScanLoop ((tableScanKvs store (MKey.bot, MKey.top)).take n) [] ++
        tableScanEmit store
          ((stopAndCheckpoint
              { scans := applySplitWrites [{}]
                  [(0, pkScanSplit ((tableScanKvs store (MKey.bot, MKey.top)).take n))],
                states := [] }).scans.headI.bounds) =
      tableScanEmit store (MKey.bot, MKey.top) ∧
    ((pkScanLoop ((tableScanKvs store (MKey.bot, MKey.top)).take n) []).map CellKey.pk
          : Multiset Bytes) +
        ((tableScanEmit store
            ((stopAndCheckpoint
                { scans := applySplitWrites [{}]
                    [(0, pkScanSplit ((tableScanKvs store (MKey.bot, MKey.top)).take n))],
                  states := [] }).scans.headI.bounds)).map CellKey.pk : Multiset Bytes) =
      ((tableScanEmit store (MKey.bot, MKey.top)).map CellKey.pk : Multiset Bytes) := by
  have hkvs : tableScanKvs store (MKey.bot, MKey.top) = store := by
    rw [tableScanKvs, tableScanRange_bot_top]
    exact getDescendants_bot_top store
  set p : Bytes := pkScanLastKey ((tableScanKvs store (MKey.bot, MKey.top)).take n) [] with hpdef
  have hckscans :
      (stopAndCheckpoint
          { scans := applySplitWrites [{}]
              [(0, pkScanSplit ((tableScanKvs store (MKey.bot, MKey.top)).take n))],
            states := [] }).scans.headI.bounds = (MKey.strincPk p, MKey.top) := by
    simp [stopAndCheckpoint, applySplitWrites, setSplit, pkScanSplit, List.headI, hpdef]
  have hafter : tableScanEmit store
      ((stopAndCheckpoint
          { scans := applySplitWrites [{}]
              [(0, pkScanSplit ((tableScanKvs store (MKey.bot, MKey.top)).take n))],
            states := [] }).scans.headI.bounds) =
      pkScanLoop (store.filter (fun k => decide (p < k.pk))) [] := by
    rw [hckscans, tableScanEmit, tableScanKvs, tableScanRange_strincPk_top,
      getDescendants_strincPk_top]
  have hfull : tableScanEmit store (MKey.bot, MKey.top) = pkScanLoop store [] := by
    rw [tableScanEmit, hkvs]
  have hmain : pkScanLoop ((tableScanKvs store (MKey.bot, MKey.top)).take n) [] ++
      pkScanLoop (store.filter (fun k => decide (p < k.pk))) [] = pkScanLoop store [] := by
    rw [hpdef, hkvs]
    rw [hkvs] at hn2
    exact pkScan_resume_core store n hsort hn1 hn2
  have hlist : pkScanLoop ((tableScanKvs store (MKey.bot, MKey.top)).take n) [] ++
      tableScanEmit store
        ((stopAndCheckpoint
            { scans := applySplitWrites [{}]
                [(0, pkScanSplit ((tableScanKvs store (MKey.bot, MKey.top)).take n))],
              states := [] }).scans.headI.bounds) =
      tableScanEmit store (MKey.bot, MKey.top) := by
    rw [hafter, hfull]
    exact hmain
  refine ⟨hlist, ?_⟩
  have := congrArg (fun l => ((l.map CellKey.pk : List Bytes) : Multiset Bytes)) hlist
  simpa [List.map_append] using this

/-- A small concrete store (two cells of document `[1]`, one of `[2]`) used to
witness `checkpoint_exactly_once`. -/
def wStore : List CellKey := [⟨[1], [0]⟩, ⟨[1], [1]⟩, ⟨[2], [0]⟩]

theorem checkpoint_exactly_once_witness :
    (wStore.Pairwise (· < ·) ∧ 1 ≤ 2 ∧
        2 ≤ (tableScanKvs wStore (MKey.bot, MKey.top)).length) ∧
      (pkScanLoop ((tableScanKvs wStore (MKey.bot, MKey.top)).take 2) [] ++
          tableScanEmit wStore
            ((stopAndCheckpoint
                { scans := applySplitWrites [{}]
                    [(0, pkScanSplit ((tableScanKvs wStore (MKey.bot, MKey.top)).take 2))],
                  states := [] }).scans.headI.bounds) =
        tableScanEmit wStore (MKey.bot, MKey.top) ∧
      ((pkScanLoop ((tableScanKvs wStore (MKey.bot, MKey.top)).take 2) []).map CellKey.pk
            : Multiset Bytes) +
          ((tableScanEmit wStore
              ((stopAndCheckpoint
                  { scans := applySplitWrites [{}]
                      [(0, pkScanSplit ((tableScanKvs wStore (MKey.bot, MKey.top)).take 2))],
                    states := [] }).scans.headI.bounds)).map CellKey.pk : Multiset Bytes) =
        ((tableScanEmit wStore (MKey.bot, MKey.top)).map CellKey.pk : Multiset Bytes)) :=
  ⟨⟨by decide, by decide, by decide⟩,
    checkpoint_exactly_once wStore 2 (by decide) (by decide) (by decide)⟩

/-!
## Documents and the order-preserving operator pipeline (claim C2)

`Doc` models `ScanReturnedContext`: the producing scan's ID, the scan key the
scan attached, and an abstract payload standing for the wrapped read/write
context.  The order-preserving stream operators of the file are modelled by
their steady-state list semantics:

* `doFilter` (QLPlan.actor.cpp:263-315) forwards exactly the documents whose
  predicate evaluates true, preserving input order (the head-queue pattern);
* `deduplicateIndexStream` (QLPlan.actor.cpp:429-486) is the same head-queue
  pattern with the would-be-last test as the predicate;
* `doProject` (QLPlan.actor.cpp:986-1032) emits, per input document and in
  order, a fresh context carrying the same `scanId` and `scanKey`
  (QLPlan.actor.cpp:1001-1003);
* `doSkip` (QLPlan.actor.cpp:1357-1379) discards the first `leftToSkip`
  documents and forwards the rest.
-/

/-- A document handle on an inter-operator stream (`ScanReturnedContext`). -/
structure Doc where
  scanId : Int
  scanKey : MKey
  payload : Nat
deriving DecidableEq, Repr

/-- Documents emitted by a table scan with scan ID `sid` (`doPKScan` emits
`ScanReturnedContext(cx->getSubContext(lastPK), scanID, Key(kv.key))`). -/
def tableScanDocs (store : List CellKey) (bounds : MKey × MKey) (sid : Int) : List Doc :=
  (tableScanEmit store bounds).map fun kv => ⟨sid, MKey.cell kv, 0⟩

/-- An order-preserving stream operator, by its list semantics (see the section
comment for the source locations). -/
inductive Stage
  | filterS (pred : Doc → Bool)
  | dedupS (keep : Doc → Bool)
  | projectS (f : Nat → Nat)
  | skipS (k : Nat)

/-- List semantics of one operator. -/
def Stage.run : Stage → List Doc → List Doc
  | .filterS pred, l => l.filter pred
  | .dedupS keep, l => l.filter keep
  | .projectS f, l => l.map fun d => { d with payload := f d.payload }
  | .skipS k, l => l.drop k

/-- Output of a chain of operators over an input stream. -/
def runPipeline (stages : List Stage) (l : List Doc) : List Doc :=
  stages.foldl (fun acc st => st.run acc) l

/-- The scan keys carried by the documents of scan `s` in a stream, in stream
order. -/
def scanKeysOf (s : Int) (l : List Doc) : List MKey :=
  (l.filter (fun d => decide (d.scanId = s))).map Doc.scanKey

/-- The claim-C2 invariant at one operator output: per scan `s`, the scan keys
are strictly increasing and lie in the half-open checkpoint bounds. -/
def keysMonoInBounds (bounds : MKey × MKey) (s : Int) (l : List Doc) : Prop :=
  (scanKeysOf s l).Pairwise (· < ·) ∧ ∀ k ∈ scanKeysOf s l, bounds.1 ≤ k ∧ k < bounds.2

theorem pkScanLoop_sublist : ∀ (l : List CellKey) (last : Bytes), (pkScanLoop l last).Sublist l := by
  intro l
  induction l with
  | nil => intro last; simp [pkScanLoop]
  | cons k rest ih =>
    intro last
    by_cases hk : k.pk = last
    · simp only [pkScanLoop, hk, ne_eq, not_true_eq_false, if_false]
      exact (ih last).cons k
    · simp only [pkScanLoop, ne_eq, hk, not_false_eq_true, if_true]
      exact (ih k.pk).cons₂ k

theorem mem_getDescendants_range {store : List CellKey} {lo hi : MKey} {k : CellKey}
    (h : k ∈ getDescendants store lo hi) : lo ≤ MKey.cell k ∧ MKey.cell k < hi := by
  have := List.of_mem_filter h
  simpa using this

theorem scanKeysOf_sublist {s : Int} {l1 l2 : List Doc} (h : l1.Sublist l2) :
    (scanKeysOf s l1).Sublist (scanKeysOf s l2) :=
  (h.filter _).map _

theorem scanKeysOf_map_preserving (s : Int) (g : Doc → Doc)
    (hid : ∀ d, (g d).scanId = d.scanId) (hkey : ∀ d, (g d).scanKey = d.scanKey)
    (l : List Doc) : scanKeysOf s (l.map g) = scanKeysOf s l := by
  have h1 : ((fun d => decide (d.scanId = s)) ∘ g) = fun d => decide (d.scanId = s) := by
    funext d
    simp [Function.comp, hid]
  have h2 : (Doc.scanKey ∘ g) = Doc.scanKey := by
    funext d
    simp [Function.comp, hkey]
  rw [scanKeysOf, List.filter_map, List.map_map, h1, h2, scanKeysOf]

/-- The C2 invariant holds at the table scan's own output. -/
theorem keysMonoInBounds_tableScan (store : List CellKey) (bounds : MKey × MKey)
    (sid : Int) (s : Int) (hsort : store.Pairwise (· < ·)) :
    keysMonoInBounds bounds s (tableScanDocs store bounds sid) := by
  by_cases hs : s = sid
  · subst hs
    have hfiltr : ((fun d : Doc => decide (d.scanId = s)) ∘
        fun kv => (⟨s, MKey.cell kv, 0⟩ : Doc)) = fun _ => true := by
      funext kv
      simp [Function.comp]
    have hkeys : scanKeysOf s (tableScanDocs store bounds s) =
        (tableScanEmit store bounds).map (fun kv => MKey.cell kv) := by
      rw [scanKeysOf, tableScanDocs, List.filter_map, hfiltr, List.filter_true, List.map_map]
      rfl
    constructor
    · rw [hkeys]
      rw [List.pairwise_map]
      have hsub : (tableScanEmit store bounds).Sublist store :=
        (pkScanLoop_sublist _ _).trans (List.filter_sublist _)
      exact (List.Pairwise.sublist hsub hsort).imp (fun h => MKey.cell_lt_cell.mpr h)
    · rw [hkeys]
      intro k hk
      simp only [List.mem_map] at hk
      obtain ⟨kv, hkv, rfl⟩ := hk
      have hmem : kv ∈ tableScanKvs store bounds :=
        (pkScanLoop_sublist _ _).subset hkv
      obtain ⟨hlo, hhi⟩ := mem_getDescendants_range hmem
      constructor
      · calc bounds.1 ≤ max MKey.bot bounds.1 := le_max_right _ _
          _ ≤ MKey.cell kv := hlo
      · have hberange : max MKey.bot bounds.1 ≤ MKey.cell kv := hlo
        rcases max_cases (max MKey.bot bounds.1) (min MKey.top bounds.2) with ⟨he, hc⟩ | ⟨he, hc⟩
        · rw [tableScanRange] at hhi
          simp only [he] at hhi
          exact absurd hhi (not_lt_of_le hberange)
        · rw [tableScanRange] at hhi
          simp only [he] at hhi
          calc MKey.cell kv < min MKey.top bounds.2 := hhi
            _ ≤ bounds.2 := min_le_right _ _
  · have hkeys : scanKeysOf s (tableScanDocs store bounds sid) = [] := by
      simp only [scanKeysOf, tableScanDocs, List.map_eq_nil_iff, List.filter_eq_nil_iff]
      intro d hd
      simp only [List.mem_map] at hd
      obtain ⟨kv, -, rfl⟩ := hd
      simpa using fun h => hs h.symm
    rw [keysMonoInBounds, hkeys]
    simp

/-- Every operator preserves the C2 invariant. -/
theorem keysMonoInBounds_stage (bounds : MKey × MKey) (s : Int) (st : Stage)
    (l : List Doc) (h : keysMonoInBounds bounds s l) :
    keysMonoInBounds bounds s (st.run l) := by
  obtain ⟨hpw, hbd⟩ := h
  cases st with
  | filterS pred =>
    have hsub : (scanKeysOf s (l.filter pred)).Sublist (scanKeysOf s l) :=
      scanKeysOf_sublist (List.filter_sublist l)
    exact ⟨List.Pairwise.sublist hsub hpw, fun k hk => hbd k (hsub.subset hk)⟩
  | dedupS keep =>
    have hsub : (scanKeysOf s (l.filter keep)).Sublist (scanKeysOf s l) :=
      scanKeysOf_sublist (List.filter_sublist l)
    exact ⟨List.Pairwise.sublist hsub hpw, fun k hk => hbd k (hsub.subset hk)⟩
  | skipS k =>
    have hsub : (scanKeysOf s (l.drop k)).Sublist (scanKeysOf s l) :=
      scanKeysOf_sublist (List.drop_sublist k l)
    exact ⟨List.Pairwise.sublist hsub hpw, fun j hj => hbd j (hsub.subset hj)⟩
  | projectS f =>
    have heq : scanKeysOf s ((Stage.projectS f).run l) = scanKeysOf s l :=
      scanKeysOf_map_preserving s (fun d => { d with payload := f d.payload })
        (fun d => rfl) (fun d => rfl) l
    rw [keysMonoInBounds, heq]
    exact ⟨hpw, hbd⟩

/-- Bound intersection of `IndexScanPlan::execute` (QLPlan.actor.cpp:494-498):
`lowerBound = max(begin, getBounds(scanID).begin)` and `upperBound =
max(lowerBound, min(end, getBounds(scanID).end))`, where the plan's own
`begin`/`end` — already encoded, with `strinc` applied to a present upper
bound and the `"\x00"`/`"\xff"` defaults for absent ones — enter as the
precomputed `MKey` values `planB`/`planE`. -/
def indexScanRange (planB planE : MKey) (bounds : MKey × MKey) : MKey × MKey :=
  let lowerBound := max planB bounds.1
  let upperBound := max lowerBound (min planE bounds.2)
  (lowerBound, upperBound)

/-- `toDocInfo` (QLPlan.actor.cpp:324-355) composed with the index range read
issued by `IndexScanPlan::execute` (QLPlan.actor.cpp:488-501): the index-scan
leaf emits one document per index kv, in key order, with `scanKey` the full
index key (`lastKey = Key(kv.key)`, QLPlan.actor.cpp:338-342). -/
def toDocInfoDocs (store : List CellKey) (planB planE : MKey)
    (bounds : MKey × MKey) (sid : Int) : List Doc :=
  (getDescendants store (indexScanRange planB planE bounds).1
    (indexScanRange planB planE bounds).2).map fun kv => ⟨sid, MKey.cell kv, 0⟩

theorem scanKeysOf_eq_nil {s : Int} {l : List Doc} (h : ∀ d ∈ l, d.scanId ≠ s) :
    scanKeysOf s l = [] := by
  simp only [scanKeysOf, List.map_eq_nil_iff, List.filter_eq_nil_iff]
  intro d hd
  simpa using h d hd

theorem keysMonoInBounds_of_nil {bounds : MKey × MKey} {s : Int} {l : List Doc}
    (h : scanKeysOf s l = []) : keysMonoInBounds bounds s l := by
  rw [keysMonoInBounds, h]
  simp

theorem keysMonoInBounds_congr {bounds : MKey × MKey} {s : Int} {l1 l2 : List Doc}
    (h : scanKeysOf s l1 = scanKeysOf s l2) :
    keysMonoInBounds bounds s l2 → keysMonoInBounds bounds s l1 := by
  rw [keysMonoInBounds, keysMonoInBounds, h]
  exact id

/-- The C2 invariant holds at the index-scan leaf's own output. -/
theorem keysMonoInBounds_toDocInfo (store : List CellKey) (planB planE : MKey)
    (bounds : MKey × MKey) (sid s : Int) (hsort : store.Pairwise (· < ·)) :
    keysMonoInBounds bounds s (toDocInfoDocs store planB planE bounds sid) := by
  by_cases hs : s = sid
  · subst hs
    have hfiltr : ((fun d : Doc => decide (d.scanId = s)) ∘
        fun kv => (⟨s, MKey.cell kv, 0⟩ : Doc)) = fun _ => true := by
      funext kv
      simp [Function.comp]
    have hkeys : scanKeysOf s (toDocInfoDocs store planB planE bounds s) =
        (getDescendants store (indexScanRange planB planE bounds).1
          (indexScanRange planB planE bounds).2).map (fun kv => MKey.cell kv) := by
      rw [scanKeysOf, toDocInfoDocs, List.filter_map, hfiltr, List.filter_true, List.map_map]
      rfl
    constructor
    · rw [hkeys, List.pairwise_map]
      exact (List.Pairwise.sublist (List.filter_sublist _) hsort).imp
        (fun h => MKey.cell_lt_cell.mpr h)
    · rw [hkeys]
      intro k hk
      simp only [List.mem_map] at hk
      obtain ⟨kv, hkv, rfl⟩ := hk
      obtain ⟨hlo, hhi⟩ := mem_getDescendants_range hkv
      have hlo2 : max planB bounds.1 ≤ MKey.cell kv := hlo
      have hhi2 : MKey.cell kv < max (max planB bounds.1) (min planE bounds.2) := hhi
      constructor
      · calc bounds.1 ≤ max planB bounds.1 := le_max_right _ _
          _ ≤ MKey.cell kv := hlo2
      · rcases max_cases (max planB bounds.1) (min planE bounds.2) with ⟨he, hc⟩ | ⟨he, hc⟩
        · rw [he] at hhi2
          exact absurd hhi2 (not_lt_of_le hlo2)
        · rw [he] at hhi2
          calc MKey.cell kv < min planE bounds.2 := hhi2
            _ ≤ bounds.2 := min_le_right _ _
  · refine keysMonoInBounds_of_nil (scanKeysOf_eq_nil ?_)
    intro d hd
    simp only [toDocInfoDocs, List.mem_map] at hd
    obtain ⟨kv, -, rfl⟩ := hd
    exact fun h => hs h.symm

/-- An order-preserving merge of two streams: the possible outputs of
`doUnion`'s forwarding loop (QLPlan.actor.cpp:612-623 forwards whichever side
is ready, keeping each side's internal order). -/
inductive Interleave {α : Type} : List α → List α → List α → Prop
  | nil : Interleave [] [] []
  | left {d : α} {l1 l2 l : List α} : Interleave l1 l2 l → Interleave (d :: l1) l2 (d :: l)
  | right {d : α} {l1 l2 l : List α} : Interleave l1 l2 l → Interleave l1 (d :: l2) (d :: l)

theorem Interleave.mem_or {α : Type} {l1 l2 l : List α} (h : Interleave l1 l2 l) :
    ∀ x ∈ l, x ∈ l1 ∨ x ∈ l2 := by
  induction h with
  | nil =>
    intro x hx
    cases hx
  | left h ih =>
    intro x hx
    rcases List.mem_cons.mp hx with rfl | hx2
    · exact Or.inl (List.mem_cons_self _ _)
    · rcases ih x hx2 with h2 | h2
      · exact Or.inl (List.mem_cons_of_mem _ h2)
      · exact Or.inr h2
  | right h ih =>
    intro x hx
    rcases List.mem_cons.mp hx with rfl | hx2
    · exact Or.inr (List.mem_cons_self _ _)
    · rcases ih x hx2 with h2 | h2
      · exact Or.inl h2
      · exact Or.inr (List.mem_cons_of_mem _ h2)

theorem Interleave.nil_left_aux {α : Type} {l1 l2 l : List α} (h : Interleave l1 l2 l) :
    l1 = [] → l = l2 := by
  induction h with
  | nil =>
    intro _
    rfl
  | left h ih =>
    intro hc
    cases hc
  | right h ih =>
    intro hc
    rw [ih hc]

theorem Interleave.nil_right_aux {α : Type} {l1 l2 l : List α} (h : Interleave l1 l2 l) :
    l2 = [] → l = l1 := by
  induction h with
  | nil =>
    intro _
    rfl
  | left h ih =>
    intro hc
    rw [ih hc]
  | right h ih =>
    intro hc
    cases hc

theorem Interleave.append {α : Type} : ∀ (l1 l2 : List α), Interleave l1 l2 (l1 ++ l2) := by
  intro l1
  induction l1 with
  | nil =>
    intro l2
    induction l2 with
    | nil => exact Interleave.nil
    | cons d rest ih => exact Interleave.right ih
  | cons d rest ih =>
    intro l2
    exact Interleave.left (ih l2)

theorem scanKeysOf_cons (s : Int) (d : Doc) (l : List Doc) :
    scanKeysOf s (d :: l) =
      if d.scanId = s then d.scanKey :: scanKeysOf s l else scanKeysOf s l := by
  by_cases h : d.scanId = s <;> simp [scanKeysOf, List.filter_cons, h]

theorem interleave_scanKeys (s : Int) {l1 l2 l : List Doc} (h : Interleave l1 l2 l) :
    Interleave (scanKeysOf s l1) (scanKeysOf s l2) (scanKeysOf s l) := by
  induction h with
  | nil => exact Interleave.nil
  | left h ih =>
    rename_i d l1a l2a la
    rw [scanKeysOf_cons, scanKeysOf_cons]
    by_cases hd : d.scanId = s
    · rw [if_pos hd, if_pos hd]
      exact Interleave.left ih
    · rw [if_neg hd, if_neg hd]
      exact ih
  | right h ih =>
    rename_i d l1a l2a la
    rw [scanKeysOf_cons, scanKeysOf_cons]
    by_cases hd : d.scanId = s
    · rw [if_pos hd, if_pos hd]
      exact Interleave.right ih
    · rw [if_neg hd, if_neg hd]
      exact ih

/-- A plan tree of the operators the claim ranges over: the two scan leaves
(`doPKScan` behind `TableScanPlan`/`PrimaryKeyLookupPlan`, `toDocInfo` behind
`IndexScanPlan`), the order-preserving stream operators, and `UnionPlan`. -/
inductive QPlan
  | tableScanQ (store : List CellKey) (sid : Int)
  | indexScanQ (store : List CellKey) (planB planE : MKey) (sid : Int)
  | stageQ (st : Stage) (sub : QPlan)
  | unionQ (p1 p2 : QPlan)

/-- Scan IDs of a plan's leaves (`addScan` assigns one per leaf in execute
order). -/
def QPlan.sids : QPlan → List Int
  | .tableScanQ _ sid => [sid]
  | .indexScanQ _ _ _ sid => [sid]
  | .stageQ _ sub => sub.sids
  | .unionQ p1 p2 => p1.sids ++ p2.sids

/-- Wellformedness: every leaf's store is sorted by full key (the KV store's
order) and the leaves carry distinct scan IDs (as `addScan`'s consistent
execute-order numbering guarantees). -/
def QPlan.WF : QPlan → Prop
  | .tableScanQ store _ => store.Pairwise (· < ·)
  | .indexScanQ store _ _ _ => store.Pairwise (· < ·)
  | .stageQ _ sub => sub.WF
  | .unionQ p1 p2 => p1.WF ∧ p2.WF ∧ ∀ t ∈ p1.sids, t ∉ p2.sids

/-- The output streams a plan may produce under the per-scan checkpoint bounds
`bnds`: each scan leaf range-reads under its own intersected bounds, a stage
transforms its input stream, and union emits any order-preserving merge of its
two inputs. -/
inductive Emits (bnds : Int → MKey × MKey) : QPlan → List Doc → Prop
  | tableScanE {store : List CellKey} {sid : Int} :
      Emits bnds (QPlan.tableScanQ store sid) (tableScanDocs store (bnds sid) sid)
  | indexScanE {store : List CellKey} {planB planE : MKey} {sid : Int} :
      Emits bnds (QPlan.indexScanQ store planB planE sid)
        (toDocInfoDocs store planB planE (bnds sid) sid)
  | stageE {st : Stage} {sub : QPlan} {l : List Doc} :
      Emits bnds sub l → Emits bnds (QPlan.stageQ st sub) (st.run l)
  | unionE {p1 p2 : QPlan} {l1 l2 l : List Doc} :
      Emits bnds p1 l1 → Emits bnds p2 l2 → Interleave l1 l2 l →
      Emits bnds (QPlan.unionQ p1 p2) l

/-- Every document a plan emits carries the scan ID of one of its leaves. -/
theorem Emits.scanId_mem {bnds : Int → MKey × MKey} {p : QPlan} {l : List Doc}
    (h : Emits bnds p l) : ∀ d ∈ l, d.scanId ∈ p.sids := by
  induction h with
  | tableScanE =>
    intro d hd
    simp only [tableScanDocs, List.mem_map] at hd
    obtain ⟨kv, -, rfl⟩ := hd
    simp [QPlan.sids]
  | indexScanE =>
    intro d hd
    simp only [toDocInfoDocs, List.mem_map] at hd
    obtain ⟨kv, -, rfl⟩ := hd
    simp [QPlan.sids]
  | stageE h ih =>
    rename_i st sub lsub
    intro d hd
    cases st with
    | filterS pred => exact ih d (List.mem_of_mem_filter hd)
    | dedupS keep => exact ih d (List.mem_of_mem_filter hd)
    | skipS k => exact ih d ((List.drop_sublist k lsub).subset hd)
    | projectS f =>
      simp only [Stage.run, List.mem_map] at hd
      obtain ⟨d2, hd2, rfl⟩ := hd
      exact ih d2 hd2
  | unionE h1 h2 hint ih1 ih2 =>
    intro d hd
    simp only [QPlan.sids, List.mem_append]
    rcases hint.mem_or d hd with h2m | h2m
    · exact Or.inl (ih1 d h2m)
    · exact Or.inr (ih2 d h2m)

/-- C2.  For every scan `s` and EVERY operator of a plan built from the scan
leaves (`doPKScan`, `toDocInfo`), the order-preserving stream operators and
`UnionPlan` — with sorted stores and distinct leaf scan IDs — the scan keys of
the documents with `scanId = s` at that operator's output are strictly
monotonically increasing and lie in `[bounds[s].begin, bounds[s].end)` of the
checkpoint the plan executes under.  (Each operator's output stream is the
root emission of its own subtree, and the hypotheses are inherited by
subtrees, so quantifying over all plans covers every operator of every
plan.) -/
theorem scan_keys_monotone_and_bounded (bnds : Int → MKey × MKey) (p : QPlan)
    (l : List Doc) (s : Int) (hwf : p.WF) (he : Emits bnds p l) :
    keysMonoInBounds (bnds s) s l := by
  revert hwf
  induction he with
  | tableScanE =>
    rename_i store sid
    intro hwf
    by_cases hs : s = sid
    · subst hs
      exact keysMonoInBounds_tableScan store (bnds s) s s hwf
    · refine keysMonoInBounds_of_nil (scanKeysOf_eq_nil ?_)
      intro d hd
      simp only [tableScanDocs, List.mem_map] at hd
      obtain ⟨kv, -, rfl⟩ := hd
      exact fun h => hs h.symm
  | indexScanE =>
    rename_i store planB planE sid
    intro hwf
    by_cases hs : s = sid
    · subst hs
      exact keysMonoInBounds_toDocInfo store planB planE (bnds s) s s hwf
    · refine keysMonoInBounds_of_nil (scanKeysOf_eq_nil ?_)
      intro d hd
      simp only [toDocInfoDocs, List.mem_map] at hd
      obtain ⟨kv, -, rfl⟩ := hd
      exact fun h => hs h.symm
  | stageE h ih =>
    rename_i st sub lsub
    intro hwf
    exact keysMonoInBounds_stage (bnds s) s st lsub (ih hwf)
  | unionE h1 h2 hint ih1 ih2 =>
    rename_i p1 p2 l1 l2 lm
    intro hwf
    obtain ⟨hwf1, hwf2, hdisj⟩ := hwf
    by_cases hs2 : s ∈ p2.sids
    · have hs1 : s ∉ p1.sids := fun hin => hdisj s hin hs2
      have hnil : scanKeysOf s l1 = [] :=
        scanKeysOf_eq_nil (fun d hd h => hs1 (h ▸ h1.scanId_mem d hd))
      have hkeys := interleave_scanKeys s hint
      rw [hnil] at hkeys
      exact keysMonoInBounds_congr (Interleave.nil_left_aux hkeys rfl) (ih2 hwf2)
    · have hnil : scanKeysOf s l2 = [] :=
        scanKeysOf_eq_nil (fun d hd h => hs2 (h ▸ h2.scanId_mem d hd))
      have hkeys := interleave_scanKeys s hint
      rw [hnil] at hkeys
      exact keysMonoInBounds_congr (Interleave.nil_right_aux hkeys rfl) (ih1 hwf1)

theorem scan_keys_monotone_and_bounded_witness :
    (QPlan.unionQ (QPlan.tableScanQ [⟨[1], [0]⟩, ⟨[2], [0]⟩] 0)
        (QPlan.stageQ (Stage.dedupS fun d => decide (d.payload = 0))
          (QPlan.indexScanQ [⟨[4], [1]⟩] MKey.bot MKey.top 1))).WF ∧
      keysMonoInBounds (MKey.bot, MKey.top) 0
        (tableScanDocs [⟨[1], [0]⟩, ⟨[2], [0]⟩] (MKey.bot, MKey.top) 0 ++
          (Stage.dedupS fun d => decide (d.payload = 0)).run
            (toDocInfoDocs [⟨[4], [1]⟩] MKey.bot MKey.top (MKey.bot, MKey.top) 1)) :=
  ⟨by simp only [QPlan.WF]; exact ⟨by decide, by decide, by decide⟩,
    scan_keys_monotone_and_bounded (fun _ => (MKey.bot, MKey.top)) _ _ 0
      (by simp only [QPlan.WF]; exact ⟨by decide, by decide, by decide⟩)
      (Emits.unionE Emits.tableScanE (Emits.stageE Emits.indexScanE)
        (Interleave.append _ _))⟩

/-!
## `stopAndCheckpoint`'s construction and the cancellation handlers (C3, C4)
-/

/-- The final value of scan `i`'s split key after a sequence of split-bound
writes, starting from `d` (the last write to `i` wins; `d` is retained if no
write targets `i`). -/
def finalSplit (ws : List (Nat × MKey)) (i : Nat) (d : MKey) : MKey :=
  ws.foldl (fun acc w => if w.1 = i then w.2 else acc) d

theorem setSplit_getD : ∀ (scans : List ScanEntry) (i j : Nat) (k : MKey),
    (setSplit scans i k).getD j {} =
      if i = j ∧ j < scans.length then { scans.getD j {} with split := k }
      else scans.getD j {} := by
  intro scans
  induction scans with
  | nil =>
    intro i j k
    simp [setSplit]
  | cons s rest ih =>
    intro i j k
    cases i with
    | zero =>
      cases j with
      | zero => simp [setSplit]
      | succ j' => simp [setSplit, List.getD_cons_succ]
    | succ i' =>
      cases j with
      | zero => simp [setSplit]
      | succ j' =>
        simp only [setSplit, List.getD_cons_succ, List.length_cons]
        rw [ih i' j' k]
        by_cases hc : i' = j' ∧ j' < rest.length
        · rw [if_pos hc, if_pos (by omega)]
        · rw [if_neg hc, if_neg (by omega)]

theorem setSplit_length (scans : List ScanEntry) (i : Nat) (k : MKey) :
    (setSplit scans i k).length = scans.length := by
  induction scans generalizing i with
  | nil => rfl
  | cons s rest ih =>
    cases i with
    | zero => rfl
    | succ i' => simpa [setSplit] using ih i'

theorem applySplitWrites_getD : ∀ (ws : List (Nat × MKey)) (scans : List ScanEntry) (j : Nat),
    (applySplitWrites scans ws).getD j {} =
      if j < scans.length then
        { scans.getD j {} with split := finalSplit ws j ((scans.getD j {}).split) }
      else scans.getD j {} := by
  intro ws
  induction ws with
  | nil =>
    intro scans j
    have : applySplitWrites scans [] = scans := rfl
    rw [this]
    split <;> rfl
  | cons w rest ih =>
    intro scans j
    have hstep : applySplitWrites scans (w :: rest) =
        applySplitWrites (setSplit scans w.1 w.2) rest := rfl
    rw [hstep, ih, setSplit_length, setSplit_getD]
    by_cases hj : j < scans.length
    · rw [if_pos hj, if_pos hj]
      by_cases hw : w.1 = j
      · rw [if_pos ⟨hw, hj⟩]
        have : finalSplit (w :: rest) j ((scans.getD j {}).split) =
            finalSplit rest j w.2 := by
          simp [finalSplit, hw]
        rw [this]
      · rw [if_neg (by tauto)]
        have : finalSplit (w :: rest) j ((scans.getD j {}).split) =
            finalSplit rest j ((scans.getD j {}).split) := by
          simp [finalSplit, hw]
        rw [this]
    · rw [if_neg hj, if_neg hj, if_neg (by tauto)]

theorem getD_map_scan (f : ScanEntry → ScanEntry) :
    ∀ (l : List ScanEntry) (j : Nat), j < l.length → (l.map f).getD j {} = f (l.getD j {}) := by
  intro l
  induction l with
  | nil => intro j h; simp at h
  | cons s rest ih =>
    intro j h
    cases j with
    | zero => rfl
    | succ j' =>
      simp only [List.map_cons, List.getD_cons_succ]
      exact ih j' (by simpa using h)

theorem getD_map_state (f : StateEntry → StateEntry) :
    ∀ (l : List StateEntry) (j : Nat), j < l.length →
      (l.map f).getD j ⟨0, 0⟩ = f (l.getD j ⟨0, 0⟩) := by
  intro l
  induction l with
  | nil => intro j h; simp at h
  | cons s rest ih =>
    intro j h
    cases j with
    | zero => rfl
    | succ j' =>
      simp only [List.map_cons, List.getD_cons_succ]
      exact ih j' (by simpa using h)

theorem applySplitWrites_length : ∀ (ws : List (Nat × MKey)) (scans : List ScanEntry),
    (applySplitWrites scans ws).length = scans.length := by
  intro ws
  induction ws with
  | nil =>
    intro scans
    rfl
  | cons w rest ih =>
    intro scans
    have hstep : applySplitWrites scans (w :: rest) =
        applySplitWrites (setSplit scans w.1 w.2) rest := rfl
    rw [hstep, ih, setSplit_length]

theorem finalSplit_no_write : ∀ (ws : List (Nat × MKey)) (j : Nat) (d : MKey),
    (∀ w ∈ ws, w.1 ≠ j) → finalSplit ws j d = d := by
  intro ws
  induction ws with
  | nil =>
    intro j d _
    rfl
  | cons w rest ih =>
    intro j d hall
    have hw : w.1 ≠ j := hall w (List.mem_cons_self w rest)
    simp only [finalSplit, List.foldl_cons, if_neg hw]
    exact ih j d (fun x hx => hall x (List.mem_cons_of_mem w hx))

theorem tableScanEmit_top (store : List CellKey) (e : MKey) :
    tableScanEmit store (MKey.top, e) = [] := by
  have hbk : max MKey.bot MKey.top = MKey.top := max_eq_right (MKey.bot_le _)
  have hek : max MKey.top (min MKey.top e) = MKey.top := max_eq_left (min_le_left _ _)
  rw [tableScanEmit, tableScanKvs, tableScanRange]
  simp only [hbk, hek]
  have : getDescendants store MKey.top MKey.top = [] := by
    rw [getDescendants, List.filter_eq_nil_iff]
    intro k _
    simp only [Bool.and_eq_true, decide_eq_true_eq, not_and]
    intro hle
    exact absurd hle (not_le_of_lt (MKey.cell_lt_top k))
  rw [this]
  rfl

/-- C3.  `stopAndCheckpoint` applied after the cancellation writes `ws`:
(1) for every scan `j`, the new checkpoint's bounds are
`[final written split (default: the old split), old end)`;
(2) if scan `j`'s entry was fresh (split = the `"\xff"` sentinel) and no write
targeted it (the scan completed), the final split retains the sentinel and a
table scan resumed under the resulting bounds emits nothing;
(3) every integer operator state of the new checkpoint starts from the old
state's split value. -/
theorem stopAndCheckpoint_construction (c : PlanCheckpoint) (ws : List (Nat × MKey)) :
    (∀ j, j < c.scans.length →
      ((stopAndCheckpoint { c with scans := applySplitWrites c.scans ws }).scans.getD j {}).bounds =
        (finalSplit ws j ((c.scans.getD j {}).split), (c.scans.getD j {}).bounds.2)) ∧
    (∀ j store e, (c.scans.getD j {}).split = MKey.top → (∀ w ∈ ws, w.1 ≠ j) →
      finalSplit ws j ((c.scans.getD j {}).split) = MKey.top ∧
      tableScanEmit store (MKey.top, e) = []) ∧
    (∀ i, i < c.states.length →
      ((stopAndCheckpoint { c with scans := applySplitWrites c.scans ws }).states.getD i
          ⟨0, 0⟩).start =
        (c.states.getD i ⟨0, 0⟩).split) := by
  refine ⟨?_, ?_, ?_⟩
  · intro j hj
    have hlen : j < (applySplitWrites c.scans ws).length := by
      rw [applySplitWrites_length]
      exact hj
    rw [stopAndCheckpoint]
    simp only
    rw [getD_map_scan _ _ j hlen, applySplitWrites_getD, if_pos hj]
  · intro j store e hfresh hnw
    constructor
    · rw [finalSplit_no_write ws j _ hnw, hfresh]
    · exact tableScanEmit_top store e
  · intro i hi
    rw [stopAndCheckpoint]
    simp only
    rw [getD_map_state _ _ i hi]

theorem stopAndCheckpoint_construction_witness :
    (0 < 2 ∧ (∀ w ∈ [((0 : Nat), MKey.strincPk [3])], w.1 ≠ 1) ∧ 0 < 1) ∧
      (((stopAndCheckpoint
            { scans := applySplitWrites [⟨(MKey.bot, MKey.top), MKey.top⟩, {}]
                [(0, MKey.strincPk [3])],
              states := [⟨5, 7⟩] }).scans.getD 0 {}).bounds =
          (finalSplit [(0, MKey.strincPk [3])] 0 MKey.top, MKey.top) ∧
        (finalSplit [(0, MKey.strincPk [3])] 1 MKey.top = MKey.top ∧
          tableScanEmit [⟨[1], []⟩] (MKey.top, MKey.top) = []) ∧
        ((stopAndCheckpoint
            { scans := applySplitWrites [⟨(MKey.bot, MKey.top), MKey.top⟩, {}]
                [(0, MKey.strincPk [3])],
              states := [⟨5, 7⟩] }).states.getD 0 ⟨0, 0⟩).start = 7) := by
  have h := stopAndCheckpoint_construction
    ⟨[⟨(MKey.bot, MKey.top), MKey.top⟩, {}], [⟨5, 7⟩]⟩ [(0, MKey.strincPk [3])]
  exact ⟨⟨by decide, by decide, by decide⟩, h.1 0 (by decide),
    h.2.1 1 [⟨[1], []⟩] MKey.top (by decide) (by decide), h.2.2 0 (by decide)⟩

/-!
## The asynchronous operators' cancellation handlers (claim C4)

`doFilter` (QLPlan.actor.cpp:306-310), `doProject` (1023-1027),
`deduplicateIndexStream` (477-481) and `doUpdate` (1133-1137) share an
identical cancellation handler: when cancelled with `splitBoundWanted()`, they
iterate the queue of documents received-but-not-yet-forwarded in the reverse of
output order and perform `checkpoint->splitBound(d.scanId()) = d.scanKey()` for
each.
-/

/-- The sequence of split-bound writes the shared handler performs:
`for (i = futures.size()-1; i >= 0; i--) splitBound(futures[i].scanId) = futures[i].scanKey`. -/
def splitBoundWritesOnCancel (pending : List Doc) : List (Int × MKey) :=
  pending.reverse.map fun d => (d.scanId, d.scanKey)

/-- Applying a sequence of split-bound writes to the checkpoint's split map
(first to last; the last write to a scan wins). -/
def applyFnWrites (m : Int → MKey) (ws : List (Int × MKey)) : Int → MKey :=
  ws.foldl (fun acc w => fun s => if s = w.1 then w.2 else acc s) m

/-- C4.  After the shared cancellation handler runs over the pending queue, the
split bound of every scan `s` is the scan key of the EARLIEST (first in output
order) pending document of scan `s`; scans with no pending document keep their
previous split bound. -/
theorem cancel_handler_earliest_undelivered (m : Int → MKey) (pending : List Doc) (s : Int) :
    applyFnWrites m (splitBoundWritesOnCancel pending) s =
      ((pending.find? (fun d => decide (d.scanId = s))).map Doc.scanKey).getD (m s) := by
  induction pending generalizing m with
  | nil => rfl
  | cons d rest ih =>
    have hstep : splitBoundWritesOnCancel (d :: rest) =
        splitBoundWritesOnCancel rest ++ [(d.scanId, d.scanKey)] := by
      simp [splitBoundWritesOnCancel]
    rw [hstep, applyFnWrites, List.foldl_append]
    simp only [List.foldl_cons, List.foldl_nil]
    by_cases hd : d.scanId = s
    · rw [List.find?_cons_of_pos _ (by simpa using hd)]
      simp [hd]
    · rw [List.find?_cons_of_neg _ (by simpa using hd)]
      have : (if s = d.scanId then d.scanKey
          else List.foldl (fun acc w => fun t => if t = w.1 then w.2 else acc t) m
            (splitBoundWritesOnCancel rest) s) =
          List.foldl (fun acc w => fun t => if t = w.1 then w.2 else acc t) m
            (splitBoundWritesOnCancel rest) s := by
        rw [if_neg (fun h => hd h.symm)]
      rw [this]
      exact ih m

/-!
## Index-stream deduplication (claim C5): `simpleWouldBeLast`

`simpleWouldBeLast` (QLPlan.actor.cpp:357-384) decides whether the index entry
currently in hand is the one at which the document should be emitted.  The
model works over already-encoded key parts (`Bytes`): `old_values` is the list
of encoded values of the indexed path on the document (the result of
`evaluate` + `encode_key_part`), `scanKey` the current index entry's key, and
`indexUpperBound` the scan's upper bound.  `std::sort` is modelled by insertion
sort (any comparison sort: the code only uses the sorted order).
-/

/-- `simpleWouldBeLast` (QLPlan.actor.cpp:357-384): forward the document iff it
has a single index value, or the largest sorted encoded value strictly below
`indexUpperBound` is a prefix of the current scan key. -/
def simpleWouldBeLast (scanKey : Bytes) (old_values : List Bytes)
    (indexUpperBound : Bytes) : Bool :=
  if old_values.length = 1 then true
  else
    let old_key_parts := old_values
    let sorted := List.insertionSort (· ≤ ·) old_key_parts
    let last := ((sorted.reverse).find? (fun s => decide (s < indexUpperBound))).getD []
    last.isPrefixOf scanKey

theorem isPrefixOf_append_self (v tail : Bytes) : v.isPrefixOf (v ++ tail) = true := by
  induction v with
  | nil => simp
  | cons a as ih => simp [List.isPrefixOf, ih]

theorem le_of_isPrefixOf : ∀ (a b : Bytes), a.isPrefixOf b = true → a ≤ b := by
  intro a
  induction a with
  | nil =>
    intro b _
    exact List.nil_le
  | cons x as ih =>
    intro b h
    cases b with
    | nil => cases h
    | cons y bs =>
      simp only [List.isPrefixOf, Bool.and_eq_true, beq_iff_eq] at h
      obtain ⟨rfl, h2⟩ := h
      exact List.cons_le_cons x (ih bs h2)

theorem isPrefixOf_comparable : ∀ (c a b : Bytes),
    a.isPrefixOf c = true → b.isPrefixOf c = true →
    a.isPrefixOf b = true ∨ b.isPrefixOf a = true := by
  intro c
  induction c with
  | nil =>
    intro a b ha hb
    cases a with
    | nil => exact Or.inl (by simp)
    | cons xa as => cases ha
  | cons x cs ih =>
    intro a b ha hb
    cases a with
    | nil => exact Or.inl (by simp)
    | cons xa as =>
      cases b with
      | nil => exact Or.inr (by simp)
      | cons xb bs =>
        simp only [List.isPrefixOf, Bool.and_eq_true, beq_iff_eq] at ha hb
        obtain ⟨rfl, ha2⟩ := ha
        obtain ⟨rfl, hb2⟩ := hb
        rcases ih as bs ha2 hb2 with h | h
        · exact Or.inl (by simpa [List.isPrefixOf] using h)
        · exact Or.inr (by simpa [List.isPrefixOf] using h)

/-- `find?` over a descending list with a downward-closed test returns the
maximum satisfying element. -/
theorem find?_desc_max (u : Bytes) : ∀ (L : List Bytes),
    L.Pairwise (fun a b : Bytes => b ≤ a) →
    ∀ {m : Bytes}, L.find? (fun s => decide (s < u)) = some m →
      m ∈ L ∧ m < u ∧ ∀ w ∈ L, w < u → w ≤ m := by
  intro L
  induction L with
  | nil =>
    intro _ m h
    cases h
  | cons x rest ih =>
    intro hpw m hfind
    obtain ⟨hhead, htail⟩ := List.pairwise_cons.mp hpw
    by_cases hx : x < u
    · rw [List.find?_cons_of_pos _ (by simpa using hx)] at hfind
      cases hfind
      refine ⟨List.mem_cons_self _ _, hx, ?_⟩
      intro w hw _
      rcases List.mem_cons.mp hw with rfl | hw'
      · exact le_rfl
      · exact hhead w hw'
    · rw [List.find?_cons_of_neg _ (by simpa using hx)] at hfind
      obtain ⟨hm, hmu, hmax⟩ := ih htail hfind
      refine ⟨List.mem_cons_of_mem _ hm, hmu, ?_⟩
      intro w hw hwu
      rcases List.mem_cons.mp hw with rfl | hw'
      · exact absurd hwu hx
      · exact hmax w hw' hwu

/-- C5.  For a document whose indexed path evaluates to the encoded values
`old_values` (pairwise non-prefix, as encoded key parts are), with the current
index entry key `v ++ tail` (value `v` followed by the encoded primary key) and
entry key strictly below the scan's upper bound, `simpleWouldBeLast` forwards
the document if and only if `v` is the largest value strictly below
`indexUpperBound` — so the document is emitted exactly once, at its last
eligible index entry. -/
theorem simpleWouldBeLast_iff_largest (v tail u : Bytes) (old_values : List Bytes)
    (hmem : v ∈ old_values)
    (hkey_lt : v ++ tail < u)
    (hpf : ∀ a ∈ old_values, ∀ b ∈ old_values, a.isPrefixOf b = true → a = b) :
    simpleWouldBeLast (v ++ tail) old_values u = true ↔
      ∀ w ∈ old_values, w < u → w ≤ v := by
  have hvu : v < u := lt_of_le_of_lt (le_of_isPrefixOf v (v ++ tail)
    (isPrefixOf_append_self v tail)) hkey_lt
  by_cases hlen : old_values.length = 1
  · rw [simpleWouldBeLast, if_pos hlen]
    simp only [true_iff]
    cases old_values with
    | nil => cases hmem
    | cons w rest =>
      cases rest with
      | nil =>
        simp only [List.mem_singleton] at hmem
        subst hmem
        intro w hw _
        simp only [List.mem_singleton] at hw
        subst hw
        exact le_rfl
      | cons w2 rest2 => simp at hlen
  · rw [simpleWouldBeLast, if_neg hlen]
    simp only
    set sorted := List.insertionSort (· ≤ ·) old_values with hsorted
    have hperm : sorted.Perm old_values := List.perm_insertionSort _ _
    have hdesc : sorted.reverse.Pairwise (fun a b : Bytes => b ≤ a) := by
      rw [List.pairwise_reverse]
      exact List.sorted_insertionSort _ old_values
    have hvmem : v ∈ sorted.reverse := by
      rw [List.mem_reverse]
      exact hperm.mem_iff.mpr hmem
    have hsome : (sorted.reverse.find? (fun s => decide (s < u))).isSome = true := by
      rw [List.find?_isSome]
      exact ⟨v, hvmem, by simpa using hvu⟩
    obtain ⟨m, hm⟩ := Option.isSome_iff_exists.mp hsome
    obtain ⟨hmmem, hmu, hmax⟩ := find?_desc_max u sorted.reverse hdesc hm
    have hmval : m ∈ old_values := hperm.mem_iff.mp (List.mem_reverse.mp hmmem)
    rw [hm]
    simp only [Option.getD_some]
    constructor
    · intro htrue
      have hcmp := isPrefixOf_comparable (v ++ tail) m v htrue (isPrefixOf_append_self v tail)
      have hmv : m = v := by
        rcases hcmp with h | h
        · exact hpf m hmval v hmem h
        · exact (hpf v hmem m hmval h).symm
      intro w hw hwu
      rw [← hmv]
      exact hmax w (by rw [List.mem_reverse]; exact hperm.mem_iff.mpr hw) hwu
    · intro hlargest
      have h1 : v ≤ m := hmax v hvmem hvu
      have h2 : m ≤ v := hlargest m hmval hmu
      have : m = v := le_antisymm h2 h1
      rw [this]
      exact isPrefixOf_append_self v tail

theorem simpleWouldBeLast_iff_largest_witness :
    (([2, 1] : Bytes) ∈ [[3, 9], [2, 1]] ∧ ([2, 1] ++ [0] : Bytes) < [4] ∧
        (∀ a ∈ [[3, 9], [2, 1]], ∀ b ∈ [([3, 9] : Bytes), [2, 1]],
          a.isPrefixOf b = true → a = b)) ∧
      (simpleWouldBeLast ([2, 1] ++ [0]) [[3, 9], [2, 1]] [4] = true ↔
        ∀ w ∈ [([3, 9] : Bytes), [2, 1]], w < [4] → w ≤ [2, 1]) :=
  ⟨⟨by decide, by decide, by decide⟩,
    simpleWouldBeLast_iff_largest [2, 1] [0] [4] [[3, 9], [2, 1]]
      (by decide) (by decide) (by decide)⟩

/-!
## Predicate pushdown (claim C6)

Plans and predicates are modelled as closed ASTs carrying exactly the data the
pushdown rewriter consults.  An `anyP` leaf carries the value of
`expr->get_index_key()`, the value range `pred->get_range(begin, end)` (with
values already taken through `encode_key_part`), and `pred->range_is_tight()`.
`EnvM` models the collection context's index lookups (`getSimpleIndex`,
`getCompoundIndex`).
-/

/-- Predicate tree (`IPredicate` variants consulted by `push_down`:
ALL, NONE, AND, OR, NOT, ANY; other leaf predicates fall to the rewriter's
default case and are represented by `otherLeaf`). -/
inductive Pred
  | all
  | nonePred
  | and (terms : List Pred)
  | or (terms : List Pred)
  | notP (p : Pred)
  | anyP (ikey : Bytes) (rangeB rangeE : Option Bytes) (tight : Bool)
  | otherLeaf (tag : Nat)

/-- Test for the ALL type code (`filter->getTypeCode() == IPredicate::ALL`,
QLPlan.actor.cpp:68). -/
def Pred.isAllType : Pred → Bool
  | .all => true
  | _ => false

/-- Modelled from the spec: `IPredicate::simplify` is declared outside `src/`
(the predicate implementation file is not part of the sources) and the spec
does not describe it, so it is modelled as the identity.  The claim-C6
theorems below only exercise code paths that never evaluate it. -/
def simplifyP (p : Pred) : Pred := p

/-- Index metadata as consulted by the rewriter (`IndexInfo`): the encoded
indexed-path keys. -/
structure IndexInfoM where
  indexKeys : List Bytes
deriving DecidableEq, Repr

/-- Plan tree (the operator shapes produced or inspected by the rewriter;
plans whose `push_down` is the base-class default are `otherPlan`). -/
inductive PlanT
  | emptyPlan
  | tableScan
  | pkLookup (b e : Option Bytes)
  | indexScan (index : IndexInfoM) (b e : Option Bytes)
  | unionPlan (p1 p2 : PlanT)
  | filterPlan (source : PlanT) (q : Pred)
  | otherPlan (tag : Nat)

/-- Model of `DataValue(s, DVTypeCode::STRING).encode_key_part()`: a type byte
followed by the content (injective; adequate for the equality tests the
rewriter performs). -/
def encodeStringKP (s : Bytes) : Bytes := 2 :: s

/-- The encoded `"_id"` key part the rewriter compares against
(QLPlan.actor.cpp:98). -/
def idKeyEncoded : Bytes := encodeStringKP [95, 105, 100]

/-- Collection context as consulted by the rewriter: `getSimpleIndex` and
`getCompoundIndex` lookups. -/
structure EnvM where
  getSimpleIndex : Bytes → Option IndexInfoM
  getCompoundIndex : IndexInfoM → Bytes → Option IndexInfoM

/-- Loop of the AND cases (QLPlan.actor.cpp:152-174 and 231-254): push down the
first pushable term, wrap the result in a filter for the remaining terms
(`// SOMEDAY: Don't break here`), abandon if no term is pushable. -/
def andPushLoop (pd : Pred → Option PlanT) (cfp : PlanT → Pred → PlanT) :
    List Pred → List Pred → Option PlanT
  | _, [] => none
  | seen, t :: rest =>
    match pd t with
    | some plan => some (cfp plan (simplifyP (Pred.and (seen.reverse ++ rest))))
    | none => andPushLoop pd cfp (t :: seen) rest

/-- The `push_down` family (QLPlan.actor.cpp:83-85, 93-182, 198-261), with a
fuel parameter bounding recursion depth (the C++ recursion is finite because
each nesting strictly shrinks the predicate or moves to a compound index; every
claim below is insensitive to the fuel beyond the paths it exercises).
`single_key()` is modelled from the spec (§4.10: an index scan over "a single
fixed prefix"): both bounds present and equal. -/
def pushDownPlan : Nat → EnvM → PlanT → Pred → Option PlanT
  | 0, _, _, _ => none
  | fuel + 1, cx, p, q =>
    let cfp : PlanT → Pred → PlanT := fun s f =>
      if f.isAllType then s
      else
        match pushDownPlan fuel cx s f with
        | some pd => pd
        | none => PlanT.filterPlan s f
    match p with
    | PlanT.tableScan =>
      match q with
      | Pred.anyP ikey rb re tight =>
        if ikey = idKeyEncoded then
          if rb.isSome || re.isSome then
            if tight then some (PlanT.pkLookup rb re)
            else some (cfp (PlanT.pkLookup rb re) (Pred.anyP ikey rb re tight))
          else none
        else
          match cx.getSimpleIndex (encodeStringKP ikey) with
          | some idx =>
            if rb.isSome || re.isSome then
              if tight then some (PlanT.indexScan idx rb re)
              else some (cfp (PlanT.indexScan idx rb re) (Pred.anyP ikey rb re tight))
            else none
          | none => none
      | Pred.or terms =>
        match terms.getLast? with
        | none => none
        | some last =>
          match pushDownPlan fuel cx PlanT.tableScan last with
          | some lastPlan =>
            match pushDownPlan fuel cx PlanT.tableScan
                (simplifyP (Pred.and [Pred.or terms.dropLast, Pred.notP last])) with
            | some pd => some (PlanT.unionPlan pd lastPlan)
            | none => none
          | none => none
      | Pred.and terms =>
        andPushLoop (pushDownPlan fuel cx PlanT.tableScan) cfp [] terms
      | Pred.nonePred => some PlanT.emptyPlan
      | _ => none
    | PlanT.indexScan idx b e =>
      if b.isSome && e.isSome && b = e then
        match q with
        | Pred.anyP ikey rb re tight =>
          match cx.getCompoundIndex idx (encodeStringKP ikey) with
          | some oIdx =>
            if rb.isSome || re.isSome then
              if tight then
                some (PlanT.indexScan oIdx (b.map (· ++ rb.getD [0]))
                  (e.map (· ++ re.getD [255])))
              else
                some (cfp (PlanT.indexScan oIdx (b.map (· ++ rb.getD [0]))
                  (e.map (· ++ re.getD [255]))) (Pred.anyP ikey rb re tight))
            else none
          | none => none
        | Pred.and terms =>
          andPushLoop (pushDownPlan fuel cx (PlanT.indexScan idx b e)) cfp [] terms
        | _ => none
      else none
    | PlanT.filterPlan src f =>
      some (PlanT.filterPlan src (simplifyP (Pred.and [f, q])))
    | _ => none

/-- `FilterPlan::construct_filter_plan` (QLPlan.actor.cpp:65-81): return the
source unchanged for ALL, otherwise the pushed-down plan when pushdown
succeeds, otherwise the explicit filter node. -/
def constructFilterPlan (fuel : Nat) (cx : EnvM) (source : PlanT) (filter : Pred) : PlanT :=
  if filter.isAllType then source
  else
    match pushDownPlan fuel cx source filter with
    | some pd => pd
    | none => PlanT.filterPlan source filter

/-- An environment with no indexes, for concrete evaluation. -/
def env0 : EnvM := ⟨fun _ => none, fun _ _ => none⟩

/-- C6 counterexample.  As stated the claim fails on the code:
`TableScanPlan::push_down(cx, ALL)` returns no plan (ALL falls to the `default`
case), not the plan itself, and `IndexScanPlan::push_down(cx, NONE)` also
returns no plan (only `TableScanPlan` maps NONE to `EmptyPlan`). -/
theorem push_down_all_none_counterexample :
    pushDownPlan 5 env0 PlanT.tableScan Pred.all = none ∧
      pushDownPlan 5 env0 (PlanT.indexScan ⟨[[7]]⟩ (some [7]) (some [7])) Pred.nonePred = none ∧
      pushDownPlan 5 env0 PlanT.tableScan Pred.all ≠ some PlanT.tableScan ∧
      pushDownPlan 5 env0 (PlanT.indexScan ⟨[[7]]⟩ (some [7]) (some [7])) Pred.nonePred ≠
        some PlanT.emptyPlan := by
  have h1 : pushDownPlan 5 env0 PlanT.tableScan Pred.all = none := rfl
  have h2 : pushDownPlan 5 env0 (PlanT.indexScan ⟨[[7]]⟩ (some [7]) (some [7])) Pred.nonePred =
      none := rfl
  refine ⟨h1, h2, ?_, ?_⟩
  · rw [h1]
    simp
  · rw [h2]
    simp

/-- C6 amended.  The pushdown entry point `construct_filter_plan` is the
identity for the trivial predicate (`construct_filter_plan(cx, p, ALL) = p`
for every plan `p`), and pushing the unsatisfiable predicate into a TABLE SCAN
yields the empty plan (`TableScanPlan::push_down(cx, NONE) = EmptyPlan`);
other plans' `push_down(cx, NONE)` yields no plan and the filter remains. -/
theorem push_down_all_none_amended :
    (∀ (fuel : Nat) (cx : EnvM) (p : PlanT), constructFilterPlan fuel cx p Pred.all = p) ∧
      (∀ (fuel : Nat) (cx : EnvM),
        pushDownPlan (fuel + 1) cx PlanT.tableScan Pred.nonePred = some PlanT.emptyPlan) := by
  constructor
  · intro fuel cx p
    rfl
  · intro fuel cx
    rfl

/-!
## UpdatePlan (claim C7): `doUpdate`
-/

/-- Read loop of `doUpdate` (QLPlan.actor.cpp:1101-1112): for each arriving
document, start `updateOp->update(doc)` and enqueue it, increment the resumable
counter, and break once `count >= limit` (the test runs only AFTER a document
has been received).  Returns the queue of documents whose updates were started
and the final counter. -/
def updateReadLoop (limit : Int) : List Doc → Int → List Doc × Int
  | [], count => ([], count)
  | d :: rest, count =>
      if count + 1 ≥ limit then ([d], count + 1)
      else
        let r := updateReadLoop limit rest (count + 1)
        (d :: r.1, r.2)

/-- `doUpdate` (QLPlan.actor.cpp:1087-1142): the read loop, then the drain of
the started updates (all emitted, in order, QLPlan.actor.cpp:1118-1122), then
the upsert (QLPlan.actor.cpp:1124-1128): insert and emit one new document with
`scanId = -1` and an empty scan key iff an `upsertOp` is configured and the
counter is 0.  `count0` is the resumable counter (`checkpoint->getIntState(0)`);
the number of `updateOp->update` calls performed equals the number of documents
read, `(updateReadLoop limit input count0).1.length`. -/
def doUpdateRun (count0 limit : Int) (input : List Doc) (upsertOp : Option Nat) :
    List Doc × Int :=
  let r := updateReadLoop limit input count0
  (r.1 ++ (if upsertOp.isSome && decide (r.2 = 0) then
      [⟨-1, MKey.bot, upsertOp.getD 0⟩] else []), r.2)

/-- Number of documents the read loop consumes: none from an empty stream;
otherwise at least one, at most the stream, stopping when the counter
reaches `limit`. -/
def specReads (count0 limit : Int) (len : Nat) : Nat :=
  if len = 0 then 0 else min len (max 1 (limit - count0).toNat)

theorem updateReadLoop_spec : ∀ (input : List Doc) (count0 limit : Int),
    updateReadLoop limit input count0 =
      (input.take (specReads count0 limit input.length),
        count0 + specReads count0 limit input.length) := by
  intro input
  induction input with
  | nil =>
    intro c l
    simp [updateReadLoop, specReads]
  | cons d rest ih =>
    intro c l
    by_cases hb : c + 1 ≥ l
    · have hk : specReads c l (d :: rest).length = 1 := by
        simp only [specReads, List.length_cons]
        rw [if_neg (by omega)]
        omega
      rw [hk]
      simp only [updateReadLoop, if_pos hb, List.take_succ_cons, List.take_zero]
      simp
    · have hstep : updateReadLoop l (d :: rest) c =
          (d :: (updateReadLoop l rest (c + 1)).1, (updateReadLoop l rest (c + 1)).2) := by
        simp only [updateReadLoop, if_neg hb]
      rw [hstep, ih (c + 1) l]
      have hk : specReads c l (d :: rest).length = specReads (c + 1) l rest.length + 1 := by
        simp only [specReads, List.length_cons]
        by_cases hr : rest.length = 0
        · rw [if_neg (by omega), if_pos hr]
          omega
        · rw [if_neg (by omega), if_neg hr]
          omega
      rw [hk]
      simp only [List.take_succ_cons, Prod.mk.injEq, true_and]
      omega

/-- C7 counterexample.  `UpdatePlan` with `limit = 0` over a nonempty input
does NOT emit zero documents / perform zero updates: the limit test runs only
after a document has been received, so one document is read, updated and
emitted (and the upsert does not fire since the counter is 1). -/
theorem doUpdate_limit_zero_counterexample :
    (doUpdateRun 0 0 [⟨0, MKey.bot, 0⟩] none).1 = [⟨0, MKey.bot, 0⟩] ∧
      (updateReadLoop 0 [⟨0, MKey.bot, 0⟩] 0).1.length = 1 ∧
      (doUpdateRun 0 0 [⟨0, MKey.bot, 0⟩] none).1 ≠ [] := by
  refine ⟨by decide, by decide, by decide⟩

/-- C7 amended.  `doUpdate` reads `specReads count0 limit input.length`
documents — zero from an empty input, otherwise at least one and at most
`(limit - count0)` (the test runs only after each arrival, so `limit = 0` with
nonempty input still updates and emits exactly one document) — updates and
emits exactly those documents in order, and then inserts and emits exactly one
upsert document iff `upsertOp` is configured and the final counter is 0 (i.e.
no document arrived and the resumed counter was 0). -/
theorem doUpdate_characterization (count0 limit : Int) (input : List Doc)
    (upsertOp : Option Nat) :
    doUpdateRun count0 limit input upsertOp =
      (input.take (specReads count0 limit input.length) ++
        (if upsertOp.isSome && decide (count0 + specReads count0 limit input.length = 0) then
          [⟨-1, MKey.bot, upsertOp.getD 0⟩] else []),
       count0 + specReads count0 limit input.length) := by
  rw [doUpdateRun]
  rw [updateReadLoop_spec input count0 limit]

/-!
## FindAndModify (claim C8)
-/

/-- Tail of `findAndModify` (QLPlan.actor.cpp:1230-1266), after the search loop
has ended with `found` as the first matching document (payloads abstracted to
`Nat`): `!projectNew && any` projects the document BEFORE the update; the
update (`updateF`) mutates a found document in place, otherwise a configured
upsert inserts `upsertOp`'s document; `projectNew && (any || upsertOp)`
projects the resulting document; finally one projected document is emitted iff
`any || (projectNew && upsertOp)`.  Returns the emitted projected payloads. -/
def findAndModifyTail (proj updateF : Nat → Nat) (found upsertOp : Option Nat)
    (projectNew : Bool) : List Nat :=
  let any := found.isSome
  let proj1 : Nat := if ¬projectNew ∧ any then proj (found.getD 0) else 0
  let firstDoc : Option Nat :=
    match found with
    | some d => some (updateF d)
    | none => upsertOp
  let proj2 : Nat :=
    if projectNew ∧ (any ∨ upsertOp.isSome) then proj (firstDoc.getD 0) else proj1
  if any ∨ (projectNew ∧ upsertOp.isSome) then [proj2] else []

/-- C8 counterexample.  With no matching document, a configured upsert and
`projectNew = false`, `findAndModify` emits NOTHING (the emission guard is
`any || (projectNew && upsertOp)`, which is false), although the upsert is
still performed and committed — the claim's "the inserted document is
projected and emitted" fails without `projectNew`. -/
theorem findAndModify_upsert_not_projected_counterexample :
    findAndModifyTail (fun x => x) (fun x => x) none (some 7) false = [] := by
  decide

/-- C8 amended.  Whenever the subplan yields no document, an `upsertOp` is
provided and `projectNew` is true, the inserted document is projected and
emitted as the single output of the plan (in the seeded scenario — identity
projection, upserted payload `u` — the output is exactly the upserted
document); with `projectNew = false` nothing is emitted. -/
theorem findAndModify_upsert_projectNew (proj updateF : Nat → Nat) (u : Nat) :
    findAndModifyTail proj updateF none (some u) true = [proj u] := by
  simp [findAndModifyTail]

/-!
## IndexInsertPlan (claim C9)
-/

/-- An index descriptor as consulted by the pre-check: the `key` spec object
and the `name` field (both abstracted to comparable byte strings). -/
structure IndexDesc where
  keySpec : Bytes
  name : Bytes
deriving DecidableEq, Repr

/-- Observable outcome of `doIndexInsert`. -/
inductive IndexInsertOutcome
  | inserted
  | silentEnd
  | nameTakenErr
deriving DecidableEq, Repr

/-- Pre-check of `doIndexInsert` (QLPlan.actor.cpp:1402-1416) with its
surrounding control flow (1411-1421): iterate the existing descriptors in
order; an equal `key` spec throws `index_already_exists`, which the catch
converts to a successful end-of-stream (no document emitted, no error
surfaced); an equal `name` (with a different `key` spec, since the key test
runs first) throws `index_name_taken`, which is surfaced; if no descriptor
triggers, the new descriptor is inserted, the collection's metadata version is
bumped and one document is emitted. -/
def doIndexInsert : List IndexDesc → IndexDesc → IndexInsertOutcome
  | [], _ => .inserted
  | d :: rest, n =>
      if d.keySpec = n.keySpec then .silentEnd
      else if d.name = n.name then .nameTakenErr
      else doIndexInsert rest n

/-- Documents emitted and whether the metadata version is bumped, per outcome
(QLPlan.actor.cpp:1418-1421 on success; the `index_already_exists` catch at
1411-1415 ends the stream without emitting; `index_name_taken` emits nothing). -/
def doIndexInsertEmits : IndexInsertOutcome → List Nat × Bool
  | .inserted => ([1], true)
  | .silentEnd => ([], false)
  | .nameTakenErr => ([], false)

/-- C9.  The pre-check of `IndexInsertPlan`: (1) if no existing index matches
the new key spec or name, the descriptor is inserted, the metadata version
bumped, and exactly one document emitted; (2) if an existing index has the
same key spec (and name clashes, if any, also carry the same key spec),
`index_already_exists` is raised and silently converted to a successful
end-of-stream — no document, no error; (3) if an existing index has the same
name but a different key spec (and none has the same key spec),
`index_name_taken` is surfaced. -/
theorem indexInsert_precheck (existing : List IndexDesc) (n : IndexDesc) :
    ((∀ d ∈ existing, d.keySpec ≠ n.keySpec ∧ d.name ≠ n.name) →
      doIndexInsert existing n = .inserted ∧
      (doIndexInsertEmits (doIndexInsert existing n)).1.length = 1 ∧
      (doIndexInsertEmits (doIndexInsert existing n)).2 = true) ∧
    ((∃ d ∈ existing, d.keySpec = n.keySpec) →
      (∀ d ∈ existing, d.name = n.name → d.keySpec = n.keySpec) →
      doIndexInsert existing n = .silentEnd ∧
      (doIndexInsertEmits (doIndexInsert existing n)).1 = []) ∧
    ((∀ d ∈ existing, d.keySpec ≠ n.keySpec) →
      (∃ d ∈ existing, d.name = n.name) →
      doIndexInsert existing n = .nameTakenErr) := by
  refine ⟨?_, ?_, ?_⟩
  · intro hnone
    have : doIndexInsert existing n = .inserted := by
      induction existing with
      | nil => rfl
      | cons d rest ih =>
        obtain ⟨hk, hn⟩ := hnone d (List.mem_cons_self d rest)
        rw [doIndexInsert, if_neg hk, if_neg hn]
        exact ih (fun x hx => hnone x (List.mem_cons_of_mem d hx))
    rw [this]
    exact ⟨rfl, rfl, rfl⟩
  · intro hkey hnames
    have : doIndexInsert existing n = .silentEnd := by
      induction existing with
      | nil =>
        obtain ⟨d, hd, -⟩ := hkey
        cases hd
      | cons d rest ih =>
        by_cases hk : d.keySpec = n.keySpec
        · rw [doIndexInsert, if_pos hk]
        · have hn : d.name ≠ n.name := fun h =>
            hk (hnames d (List.mem_cons_self d rest) h)
          rw [doIndexInsert, if_neg hk, if_neg hn]
          apply ih
          · obtain ⟨x, hx, hxk⟩ := hkey
            rcases List.mem_cons.mp hx with rfl | hx'
            · exact absurd hxk hk
            · exact ⟨x, hx', hxk⟩
          · exact fun x hx h => hnames x (List.mem_cons_of_mem d hx) h
    rw [this]
    exact ⟨rfl, rfl⟩
  · intro hnokey hname
    induction existing with
    | nil =>
      obtain ⟨d, hd, -⟩ := hname
      cases hd
    | cons d rest ih =>
      have hk : d.keySpec ≠ n.keySpec := hnokey d (List.mem_cons_self d rest)
      by_cases hn : d.name = n.name
      · rw [doIndexInsert, if_neg hk, if_pos hn]
      · rw [doIndexInsert, if_neg hk, if_neg hn]
        apply ih
        · exact fun x hx => hnokey x (List.mem_cons_of_mem d hx)
        · obtain ⟨x, hx, hxn⟩ := hname
          rcases List.mem_cons.mp hx with rfl | hx'
          · exact absurd hxn hn
          · exact ⟨x, hx', hxn⟩

theorem indexInsert_precheck_witness :
    ((∀ d ∈ [(⟨[1], [10]⟩ : IndexDesc)], d.keySpec ≠ [2] ∧ d.name ≠ [20]) ∧
      ((∃ d ∈ [(⟨[2], [10]⟩ : IndexDesc)], d.keySpec = [2]) ∧
        (∀ d ∈ [(⟨[2], [10]⟩ : IndexDesc)], d.name = [20] → d.keySpec = [2])) ∧
      ((∀ d ∈ [(⟨[1], [20]⟩ : IndexDesc)], d.keySpec ≠ [2]) ∧
        (∃ d ∈ [(⟨[1], [20]⟩ : IndexDesc)], d.name = [20]))) ∧
    (doIndexInsert [⟨[1], [10]⟩] ⟨[2], [20]⟩ = .inserted ∧
      doIndexInsert [⟨[2], [10]⟩] ⟨[2], [20]⟩ = .silentEnd ∧
      doIndexInsert [⟨[1], [20]⟩] ⟨[2], [20]⟩ = .nameTakenErr) :=
  ⟨⟨by decide, ⟨by decide, by decide⟩, ⟨by decide, by decide⟩⟩,
    ((indexInsert_precheck [⟨[1], [10]⟩] ⟨[2], [20]⟩).1 (by decide)).1,
    ((indexInsert_precheck [⟨[2], [10]⟩] ⟨[2], [20]⟩).2.1 (by decide) (by decide)).1,
    (indexInsert_precheck [⟨[1], [20]⟩] ⟨[2], [20]⟩).2.2 (by decide) (by decide)⟩

/-!
## UnionPlan (claim C10): `doUnion`

`doUnion` (QLPlan.actor.cpp:603-650) merges two document streams.  The model
is a state machine over the two input streams, each a list of document
payloads followed by one terminal error.  One step = the cooperative
scheduler delivering the next event of one side and the actor handling it
before anything else runs (the actor is always suspended in the `choose`, and
Flow delivers stream events synchronously, so a delivered terminal is handled
immediately; `errReady` records a delivered-but-unhandled terminal, which
therefore never persists across steps).  A closed side's future is `Never()`
(never fires, not an error).
-/

/-- Stream-terminating errors as `doUnion` classifies them. -/
inductive UErr
  | eos
  | cancelled
  | other (code : Nat)
deriving DecidableEq, Repr

/-- State of the `doUnion` merge loop; see the section comment. -/
structure UnionSt where
  aRem : List Nat
  aErr : UErr
  aOpen : Bool
  aErrReady : Bool
  bRem : List Nat
  bErr : UErr
  bOpen : Bool
  bErrReady : Bool
  out : List Nat
  sent : Option UErr
  halted : Bool
  assertOk : Bool
deriving DecidableEq, Repr

/-- Initial state for input streams `aDocs` terminated by `aErr` and `bDocs`
terminated by `bErr`. -/
def unionInit (aDocs : List Nat) (aErr : UErr) (bDocs : List Nat) (bErr : UErr) : UnionSt :=
  ⟨aDocs, aErr, true, false, bDocs, bErr, true, false, [], none, false, true⟩

/-- One delivered-and-handled event on side `a` (the first `when` clause and
the catch handler, QLPlan.actor.cpp:615-617 and 624-648): forward a ready
document; or catch the terminal error: rethrow `actor_cancelled`; forward any
error other than `end_of_stream` downstream at once; on `end_of_stream`,
evaluate the ASSERT (line 633: `!aFuture.isError() || !bFuture.isError() ||
codes equal`; `aFuture` just threw so its `isError()` is true), close the side
(`aFuture = Never()`), and send `end_of_stream` downstream only if both sides
are now closed. -/
def sideStepA (st : UnionSt) : UnionSt :=
  if st.aOpen then
    match st.aRem with
    | d :: rest => { st with aRem := rest, out := st.out ++ [d] }
    | [] =>
      if st.aErr = UErr.cancelled then { st with halted := true }
      else if st.aErr = UErr.eos then
        if st.bOpen then
          { st with
            assertOk := st.assertOk && ((!true) || (!st.bErrReady) || decide (st.aErr = st.bErr))
            aOpen := false, aErrReady := false }
        else
          { st with
            assertOk := st.assertOk && ((!true) || (!st.bErrReady) || decide (st.aErr = st.bErr))
            aOpen := false, aErrReady := false, sent := some UErr.eos, halted := true }
      else { st with sent := some st.aErr, halted := true }
  else st

/-- Mirror of `sideStepA` for side `b` (the second `when` clause). -/
def sideStepB (st : UnionSt) : UnionSt :=
  if st.bOpen then
    match st.bRem with
    | d :: rest => { st with bRem := rest, out := st.out ++ [d] }
    | [] =>
      if st.bErr = UErr.cancelled then { st with halted := true }
      else if st.bErr = UErr.eos then
        if st.aOpen then
          { st with
            assertOk := st.assertOk && ((!true) || (!st.aErrReady) || decide (st.bErr = st.aErr))
            bOpen := false, bErrReady := false }
        else
          { st with
            assertOk := st.assertOk && ((!true) || (!st.aErrReady) || decide (st.bErr = st.aErr))
            bOpen := false, bErrReady := false, sent := some UErr.eos, halted := true }
      else { st with sent := some st.bErr, halted := true }
  else st

/-- One scheduler step: nothing happens after the actor has terminated;
otherwise the chosen side's next event is delivered and handled. -/
def unionStep (st : UnionSt) (side : Bool) : UnionSt :=
  if st.halted then st
  else if side then sideStepA st else sideStepB st

/-- Execution of `doUnion` under an arbitrary scheduling of the two sides. -/
def unionRun (st : UnionSt) (sched : List Bool) : UnionSt :=
  sched.foldl unionStep st

/-- The C10 invariant: the terminal errors are those of the streams, every
evaluated ASSERT held, no delivered terminal is pending, `end_of_stream` was
sent downstream only with both sides ended, and any error sent downstream is a
side's terminal error or the final `end_of_stream` — never `actor_cancelled`. -/
def unionInv (ea eb : UErr) (st : UnionSt) : Prop :=
  st.aErr = ea ∧ st.bErr = eb ∧ st.assertOk = true ∧
  st.aErrReady = false ∧ st.bErrReady = false ∧
  (st.sent = some UErr.eos → st.aOpen = false ∧ st.bOpen = false) ∧
  (∀ e, st.sent = some e → e ≠ UErr.cancelled ∧ (e = ea ∨ e = eb ∨ e = UErr.eos))

theorem sideStepA_inv (ea eb : UErr) (st : UnionSt) (h : unionInv ea eb st) :
    unionInv ea eb (sideStepA st) := by
  obtain ⟨h1, h2, h3, h4, h5, h6, h7⟩ := h
  rw [sideStepA]
  by_cases hao : st.aOpen = true
  case neg =>
    rw [if_neg hao]
    exact ⟨h1, h2, h3, h4, h5, h6, h7⟩
  case pos =>
    rw [if_pos hao]
    cases harem : st.aRem with
    | cons d rest => exact ⟨h1, h2, h3, h4, h5, h6, h7⟩
    | nil =>
      by_cases hc : st.aErr = UErr.cancelled
      · rw [if_pos hc]
        exact ⟨h1, h2, h3, h4, h5, h6, h7⟩
      · rw [if_neg hc]
        by_cases he : st.aErr = UErr.eos
        · rw [if_pos he]
          have hok : (st.assertOk &&
              ((!true) || (!st.bErrReady) || decide (st.aErr = st.bErr))) = true := by
            rw [h3, h5]
            simp
          by_cases hbo : st.bOpen = true
          · rw [if_pos hbo]
            refine ⟨h1, h2, hok, rfl, h5, ?_, h7⟩
            intro hs
            exact ⟨rfl, (h6 hs).2⟩
          · rw [if_neg hbo]
            refine ⟨h1, h2, hok, rfl, h5, ?_, ?_⟩
            · intro _
              exact ⟨rfl, by simpa using hbo⟩
            · intro e hs
              simp only [Option.some.injEq] at hs
              subst hs
              exact ⟨by decide, Or.inr (Or.inr rfl)⟩
        · rw [if_neg he]
          refine ⟨h1, h2, h3, h4, h5, ?_, ?_⟩
          · intro hs
            simp only [Option.some.injEq] at hs
            exact absurd hs he
          · intro e hs
            simp only [Option.some.injEq] at hs
            subst hs
            exact ⟨hc, Or.inl h1⟩

theorem sideStepB_inv (ea eb : UErr) (st : UnionSt) (h : unionInv ea eb st) :
    unionInv ea eb (sideStepB st) := by
  obtain ⟨h1, h2, h3, h4, h5, h6, h7⟩ := h
  rw [sideStepB]
  by_cases hbo : st.bOpen = true
  case neg =>
    rw [if_neg hbo]
    exact ⟨h1, h2, h3, h4, h5, h6, h7⟩
  case pos =>
    rw [if_pos hbo]
    cases hbrem : st.bRem with
    | cons d rest => exact ⟨h1, h2, h3, h4, h5, h6, h7⟩
    | nil =>
      by_cases hc : st.bErr = UErr.cancelled
      · rw [if_pos hc]
        exact ⟨h1, h2, h3, h4, h5, h6, h7⟩
      · rw [if_neg hc]
        by_cases he : st.bErr = UErr.eos
        · rw [if_pos he]
          have hok : (st.assertOk &&
              ((!true) || (!st.aErrReady) || decide (st.bErr = st.aErr))) = true := by
            rw [h3, h4]
            simp
          by_cases hao : st.aOpen = true
          · rw [if_pos hao]
            refine ⟨h1, h2, hok, h4, rfl, ?_, h7⟩
            intro hs
            exact ⟨(h6 hs).1, rfl⟩
          · rw [if_neg hao]
            refine ⟨h1, h2, hok, h4, rfl, ?_, ?_⟩
            · intro _
              exact ⟨by simpa using hao, rfl⟩
            · intro e hs
              simp only [Option.some.injEq] at hs
              subst hs
              exact ⟨by decide, Or.inr (Or.inr rfl)⟩
        · rw [if_neg he]
          refine ⟨h1, h2, h3, h4, h5, ?_, ?_⟩
          · intro hs
            simp only [Option.some.injEq] at hs
            exact absurd hs he
          · intro e hs
            simp only [Option.some.injEq] at hs
            subst hs
            exact ⟨hc, Or.inr (Or.inl h2)⟩

theorem unionStep_inv (ea eb : UErr) (st : UnionSt) (side : Bool)
    (h : unionInv ea eb st) : unionInv ea eb (unionStep st side) := by
  rw [unionStep]
  by_cases hh : st.halted = true
  · rw [if_pos hh]
    exact h
  · rw [if_neg hh]
    cases side with
    | true => exact sideStepA_inv ea eb st h
    | false => exact sideStepB_inv ea eb st h

theorem unionRun_inv (ea eb : UErr) (st : UnionSt) (sched : List Bool)
    (h : unionInv ea eb st) : unionInv ea eb (unionRun st sched) := by
  induction sched generalizing st with
  | nil => exact h
  | cons side rest ih => exact ih (unionStep st side) (unionStep_inv ea eb st side h)

/-- C10.  Under every scheduling of a `doUnion` execution whose input streams
terminate with `end_of_stream` or a single error: (1) every evaluation of the
ASSERT at QLPlan.actor.cpp:633 succeeds (when an `end_of_stream` is handled,
the other future is never in an error state with a different code); (2)
`end_of_stream` is sent downstream only once both sides have ended; (3) any
error sent downstream is one side's terminal error or `end_of_stream`, never
`actor_cancelled`; and (4) a side's terminal error other than `end_of_stream`
and `actor_cancelled` is forwarded downstream immediately, in the very step
that handles it. -/
theorem doUnion_assert_and_forwarding (aDocs bDocs : List Nat) (ea eb : UErr)
    (sched : List Bool) :
    (unionRun (unionInit aDocs ea bDocs eb) sched).assertOk = true ∧
    ((unionRun (unionInit aDocs ea bDocs eb) sched).sent = some UErr.eos →
      (unionRun (unionInit aDocs ea bDocs eb) sched).aOpen = false ∧
      (unionRun (unionInit aDocs ea bDocs eb) sched).bOpen = false) ∧
    (∀ e, (unionRun (unionInit aDocs ea bDocs eb) sched).sent = some e →
      e ≠ UErr.cancelled ∧ (e = ea ∨ e = eb ∨ e = UErr.eos)) ∧
    (∀ st : UnionSt, st.halted = false → st.aOpen = true → st.aRem = [] →
      st.aErr ≠ UErr.cancelled → st.aErr ≠ UErr.eos →
      (unionStep st true).sent = some st.aErr ∧ (unionStep st true).halted = true) ∧
    (∀ st : UnionSt, st.halted = false → st.bOpen = true → st.bRem = [] →
      st.bErr ≠ UErr.cancelled → st.bErr ≠ UErr.eos →
      (unionStep st false).sent = some st.bErr ∧ (unionStep st false).halted = true) := by
  have hinit : unionInv ea eb (unionInit aDocs ea bDocs eb) := by
    refine ⟨rfl, rfl, rfl, rfl, rfl, ?_, ?_⟩
    · intro hs
      cases hs
    · intro e hs
      cases hs
  have hrun := unionRun_inv ea eb _ sched hinit
  obtain ⟨-, -, h3, -, -, h6, h7⟩ := hrun
  refine ⟨h3, h6, h7, ?_, ?_⟩
  · intro st hh hao harem hc he
    rw [unionStep, if_neg (by simp [hh]), sideStepA, if_pos hao, harem]
    rw [if_neg hc, if_neg he]
    exact ⟨rfl, rfl⟩
  · intro st hh hbo hbrem hc he
    rw [unionStep, if_neg (by simp [hh]), sideStepB, if_pos hbo, hbrem]
    rw [if_neg hc, if_neg he]
    exact ⟨rfl, rfl⟩

theorem doUnion_assert_and_forwarding_witness :
    (unionRun (unionInit [1] UErr.eos [2] (UErr.other 3)) [true, true, false, false]).assertOk =
      true ∧
    ((unionStep (⟨[], UErr.other 3, true, false, [7], UErr.eos, true, false, [], none,
        false, true⟩ : UnionSt) true).sent = some (UErr.other 3) ∧
      (unionStep (⟨[], UErr.other 3, true, false, [7], UErr.eos, true, false, [], none,
        false, true⟩ : UnionSt) true).halted = true) :=
  ⟨(doUnion_assert_and_forwarding [1] [2] UErr.eos (UErr.other 3) [true, true, false, false]).1,
    (doUnion_assert_and_forwarding [1] [2] UErr.eos (UErr.other 3)
        [true, true, false, false]).2.2.2.1
      ⟨[], UErr.other 3, true, false, [7], UErr.eos, true, false, [], none, false, true⟩
      (by decide) (by decide) (by decide) (by decide) (by decide)⟩
